import Mathlib

set_option linter.unusedVariables false

/-!
A shallow embedding of the reactive atom engine of `src/src/index.ts`
(the `atoms` repository).

Cells live in a heap indexed by natural numbers.  Values are natural
numbers (the engine is parametric in the value type and only ever
compares values with `Object.is`, modelled by decidable equality).
JavaScript exceptions — in particular the thrown suspension promise of
`AsyncAtom.read` — are modelled with `Except`; promises are identified
by allocation order, and a table of settled promises models promise
adoption.  The single-threaded event loop is modelled by an explicit
queue of scheduled unmount checks (`setTimeout` in the source) together
with an explicit `settle` step for the resolution handler a pending
async cell installs on its promise.  All recursion (notification
cascades, dependency re-subscription, nested reads) is driven by fuel;
exhausted fuel models non-termination and is reported as the
distinguished exception `Exc.fuel`.
-/

namespace Atoms

/-- Values stored in cells.  The engine never inspects values except to
compare them with `Object.is`, so a concrete countable type suffices. -/
abbrev Val := Nat

/-- Identity of a cell: its index in the machine heap. -/
abbrev CellId := Nat

/-- Exceptions: `prom p` is the thrown suspension promise `p` of
`AsyncAtom.read`, `err` is a genuine (non-promise) error, and `fuel`
is the out-of-fuel artifact standing for non-termination. -/
inductive Exc where
  | prom (p : Nat)
  | err
  | fuel
  deriving DecidableEq, Repr

instance {ε α : Type} [DecidableEq ε] [DecidableEq α] : DecidableEq (Except ε α)
  | Except.ok a, Except.ok b =>
      if h : a = b then isTrue (by rw [h])
      else isFalse (fun hc => h (Except.ok.inj hc))
  | Except.ok _, Except.error _ => isFalse (fun hc => Except.noConfusion hc)
  | Except.error _, Except.ok _ => isFalse (fun hc => Except.noConfusion hc)
  | Except.error e, Except.error e' =>
      if h : e = e' then isTrue (by rw [h])
      else isFalse (fun hc => h (Except.error.inj hc))

/-- The user-supplied getter of a derived atom, as a small expression
language over the tracked `get`: `getA c` is `get(atom c)`, `iteZ`
branches on truthiness (non-zero), and `fail` models a getter that
throws a genuine error. -/
inductive GExp where
  | const (v : Val)
  | getA (c : CellId)
  | add (a b : GExp)
  | iteZ (c t e : GExp)
  | fail
  deriving DecidableEq, Repr

/-- The tri-state status of an async atom. -/
inductive Status where
  | init
  | pending (p : Nat)
  | resolved
  deriving DecidableEq, Repr

/-- A subscriber callback: an external spy (observable via the event
log) or the `() => this.invalidate()` closure a derived atom registers
on its dependencies. -/
inductive SubAct where
  | spy (k : Nat)
  | inval (c : CellId)
  deriving DecidableEq, Repr

/-- The value of the `unmount` field: the cleanup a producer returned
(`cleanup k` with `k` an identity for the event log), or the closure
returned by `DerivedAtom.onMount`. -/
inductive UF where
  | cleanup (k : Nat)
  | derivedUF
  deriving DecidableEq, Repr

/-- Observable events: spy notifications, producer cleanup invocations,
derived onMount-cleanup invocations, and producer starts. -/
inductive Ev where
  | spy (k : Nat)
  | cleanupRun (k : Nat)
  | derivedCleanup (c : CellId)
  | producerStart (c : CellId)
  deriving DecidableEq, Repr

/-- The subclass-specific data of a cell.  `async cl st`: the producer
returns the cleanup `cl` (if any) and the status is `st`.  `derived g
dl`: getter `g` and dependency map `dl`, a list of (dependency,
subscription token) pairs in insertion order. -/
inductive Kind where
  | sync
  | async (cleanup : Option Nat) (status : Status)
  | derived (g : GExp) (dl : List (CellId × Nat))
  deriving DecidableEq, Repr

/-- One reactive cell (`RAtom` instance).  `dirty` starts `true` and
`state` starts at a junk value, mirroring `undefined as State` which is
never read while dirty.  `subs` is the subscriber set in insertion
order, each entry tagged with a unique token standing for the closure
identity.  `unmount` is the retained cleanup closure. -/
structure Cell where
  kind : Kind
  dirty : Bool := true
  state : Val := 0
  subs : List (Nat × SubAct) := []
  unmount : Option UF := none
  deriving DecidableEq, Repr

instance : Inhabited Cell := ⟨{ kind := Kind.sync }⟩

/-- The machine: the heap of cells, the queue of scheduled unmount
checks (`setTimeout(..., 0)`), the observable event log, fresh-token
and fresh-promise counters, and the table of settled promises. -/
structure Machine where
  cells : List Cell
  timeouts : List CellId := []
  events : List Ev := []
  nextTok : Nat := 0
  nextProm : Nat := 0
  proms : List (Nat × Val) := []
  deriving DecidableEq, Repr

/-- Pointwise update of one position of a list. -/
def modifyIdx : List Cell → Nat → (Cell → Cell) → List Cell
  | [], _, _ => []
  | x :: xs, 0, h => h x :: xs
  | x :: xs, n + 1, h => x :: modifyIdx xs n h

def getCell (m : Machine) (c : CellId) : Option Cell :=
  m.cells[c]?

def modCell (m : Machine) (c : CellId) (h : Cell → Cell) : Machine :=
  { m with cells := modifyIdx m.cells c h }

def pushEv (m : Machine) (e : Ev) : Machine :=
  { m with events := m.events ++ [e] }

/-- Total projections (defaulting on a missing cell; every theorem pins
the cell with a `getCell` hypothesis). -/
def cellOf (m : Machine) (c : CellId) : Cell :=
  (getCell m c).getD default

def kindOf (m : Machine) (c : CellId) : Kind := (cellOf m c).kind

def dirtyOf (m : Machine) (c : CellId) : Bool := (cellOf m c).dirty

def stateOf (m : Machine) (c : CellId) : Val := (cellOf m c).state

def subsList (m : Machine) (c : CellId) : List (Nat × SubAct) :=
  (cellOf m c).subs

def unmountOf (m : Machine) (c : CellId) : Option UF := (cellOf m c).unmount

def statusOf (m : Machine) (c : CellId) : Status :=
  match kindOf m c with
  | Kind.async _ st => st
  | _ => Status.init

def depsOf (m : Machine) (c : CellId) : List (CellId × Nat) :=
  match kindOf m c with
  | Kind.derived _ dl => dl
  | _ => []

/-- Registers a subscriber entry (the `this.subscribers.add` step). -/
def addSub (m : Machine) (c : CellId) (t : Nat) (a : SubAct) : Machine :=
  modCell m c (fun cl => { cl with subs := cl.subs ++ [(t, a)] })

def setUnmount (m : Machine) (c : CellId) (u : Option UF) : Machine :=
  modCell m c (fun cl => { cl with unmount := u })

/-- Overwrites the status of an async cell. -/
def setStatus (m : Machine) (c : CellId) (st : Status) : Machine :=
  modCell m c (fun cl =>
    match cl.kind with
    | Kind.async cln _ => { cl with kind := Kind.async cln st }
    | _ => cl)

/-- Appends an entry to the dependency map of a derived cell
(`this.deps.set(dep, ...)` on a fresh key). -/
def pushDep (m : Machine) (c : CellId) (d : CellId) (t : Nat) : Machine :=
  modCell m c (fun cl =>
    match cl.kind with
    | Kind.derived g dl => { cl with kind := Kind.derived g (dl ++ [(d, t)]) }
    | _ => cl)

/-- Replaces the token recorded for key `d` (`this.deps.set` on an
existing key, as done by `DerivedAtom.onMount`). -/
def setDepTok (m : Machine) (c : CellId) (d : CellId) (t : Nat) : Machine :=
  modCell m c (fun cl =>
    match cl.kind with
    | Kind.derived g dl =>
        { cl with kind :=
            Kind.derived g (dl.map (fun q => if q.1 = d then (q.1, t) else q)) }
    | _ => cl)

/-- Deletes the entry with key `d` (`this.deps.delete(dep)`). -/
def removeDepKey (m : Machine) (c : CellId) (d : CellId) : Machine :=
  modCell m c (fun cl =>
    match cl.kind with
    | Kind.derived g dl => { cl with kind := Kind.derived g (dl.filter (fun q => q.1 ≠ d)) }
    | _ => cl)

/-- The unsubscribe closure returned by `RAtom.subscribe`: removes the
subscription and, when this dropped a cell with a retained unmount
cleanup to zero subscribers, schedules the unmount check on the next
turn of the event loop. -/
def unsubscribeTok (m : Machine) (c : CellId) (t : Nat) : Machine :=
  let m₁ := modCell m c (fun cl => { cl with subs := cl.subs.filter (fun s => s.1 ≠ t) })
  if (unmountOf m₁ c).isSome && (subsList m₁ c).isEmpty then
    { m₁ with timeouts := m₁.timeouts ++ [c] }
  else m₁

/-- Invokes a retained unmount closure: a producer cleanup only logs its
invocation; the closure returned by `DerivedAtom.onMount` unsubscribes
from every recorded dependency (without clearing the map). -/
def runUF (m : Machine) (c : CellId) : UF → Machine
  | UF.cleanup k => pushEv m (Ev.cleanupRun k)
  | UF.derivedUF =>
      let m₁ := pushEv m (Ev.derivedCleanup c)
      (depsOf m₁ c).foldl (fun acc q => unsubscribeTok acc q.1 q.2) m₁

/-- Runs the next scheduled unmount check: re-checks that the cell still
has no subscribers before invoking the retained cleanup.  (When the
unmount field was overwritten to `none` in the meantime the source
would crash calling `undefined`; that path is unreachable in the
scenarios considered and modelled as a no-op.) -/
def runTimeout (m : Machine) : Machine :=
  match m.timeouts with
  | [] => m
  | c :: rest =>
      let m₁ := { m with timeouts := rest }
      if (subsList m₁ c).isEmpty then
        match unmountOf m₁ c with
        | some u => runUF m₁ c u
        | none => m₁
      else m₁

/-- The first reconcile loop of `DerivedAtom.read`: for every previously
recorded dependency not touched this pass, call its unsubscribe
callback and delete it from the map. -/
def pruneDeps (c : CellId) (ds : List CellId) : Machine → List (CellId × Nat) → Machine
  | m, [] => m
  | m, (d, t) :: rest =>
      if ds.contains d then pruneDeps c ds m rest
      else pruneDeps c ds (removeDepKey (unsubscribeTok m d t) c d) rest

mutual

/-- `RAtom.peek`: return the cached state unless dirty; otherwise invoke
the subtype `read()`, cache the result and clear the dirty flag.  A
raised exception propagates without the write-back. -/
def peek : Nat → Machine → CellId → Except Exc Val × Machine
  | 0, m, _ => (Except.error Exc.fuel, m)
  | f + 1, m, c =>
    match getCell m c with
    | none => (Except.error Exc.err, m)
    | some cell =>
      if cell.dirty then
        match readC f m c with
        | (Except.ok v, m₁) =>
            (Except.ok v, modCell m₁ c (fun cl => { cl with state := v, dirty := false }))
        | (Except.error e, m₁) => (Except.error e, m₁)
      else (Except.ok cell.state, m)

/-- Dispatch of the abstract `read()` to the subclass implementation:
`SyncAtom.read` returns the stored state; `AsyncAtom.read` starts the
producer and throws the pending promise (storing the producer cleanup
in `unmount`), re-throws the same promise while pending, and returns
the cached state once resolved; `DerivedAtom.read` evaluates the getter
under the tracked get and then reconciles the dependency map. -/
def readC : Nat → Machine → CellId → Except Exc Val × Machine
  | 0, m, _ => (Except.error Exc.fuel, m)
  | f + 1, m, c =>
    match getCell m c with
    | none => (Except.error Exc.err, m)
    | some cell =>
      match cell.kind with
      | Kind.sync => (Except.ok cell.state, m)
      | Kind.async cleanup status =>
        match status with
        | Status.init =>
            let p := m.nextProm
            let m₁ := { m with nextProm := p + 1 }
            let m₂ := modCell m₁ c (fun cl =>
              { cl with kind := Kind.async cleanup (Status.pending p),
                        unmount := cleanup.map UF.cleanup })
            (Except.error (Exc.prom p), pushEv m₂ (Ev.producerStart c))
        | Status.pending p => (Except.error (Exc.prom p), m)
        | Status.resolved => (Except.ok cell.state, m)
      | Kind.derived g dl =>
        match evalG f m [] g with
        | (Except.ok v, ds, m₁) =>
            let m₂ := pruneDeps c ds m₁ dl
            (Except.ok v, addDeps f m₂ c ds)
        | (Except.error e, _, m₁) => (Except.error e, m₁)

/-- Evaluation of a derived getter under the tracked get: every touched
cell is first added to the per-pass dependency set (first-touch order,
deduplicated as by a `Set`) and then peeked, so an upstream suspension
propagates. -/
def evalG : Nat → Machine → List CellId → GExp → Except Exc Val × List CellId × Machine
  | 0, m, ds, _ => (Except.error Exc.fuel, ds, m)
  | f + 1, m, ds, g =>
    match g with
    | GExp.const v => (Except.ok v, ds, m)
    | GExp.fail => (Except.error Exc.err, ds, m)
    | GExp.getA c =>
        let ds₁ := if ds.contains c then ds else ds ++ [c]
        match peek f m c with
        | (Except.ok v, m₁) => (Except.ok v, ds₁, m₁)
        | (Except.error e, m₁) => (Except.error e, ds₁, m₁)
    | GExp.add a b =>
        match evalG f m ds a with
        | (Except.ok va, ds₁, m₁) =>
          match evalG f m₁ ds₁ b with
          | (Except.ok vb, ds₂, m₂) => (Except.ok (va + vb), ds₂, m₂)
          | (Except.error e, ds₂, m₂) => (Except.error e, ds₂, m₂)
        | (Except.error e, ds₁, m₁) => (Except.error e, ds₁, m₁)
    | GExp.iteZ cnd t e =>
        match evalG f m ds cnd with
        | (Except.ok vc, ds₁, m₁) =>
            if vc ≠ 0 then evalG f m₁ ds₁ t else evalG f m₁ ds₁ e
        | (Except.error e', ds₁, m₁) => (Except.error e', ds₁, m₁)

/-- The second reconcile loop of `DerivedAtom.read`: subscribe (with an
invalidation callback for this derived cell) to every touched cell not
already recorded, and record it. -/
def addDeps : Nat → Machine → CellId → List CellId → Machine
  | 0, m, _, _ => m
  | _ + 1, m, _, [] => m
  | f + 1, m, c, d :: rest =>
      if (depsOf m c).any (fun q => q.1 = d) then addDeps f m c rest
      else
        let r := subscribeTo f m d (SubAct.inval c)
        addDeps f (pushDep r.2 c d r.1) c rest

/-- `RAtom.subscribe`: on the zero-to-one subscriber transition first
run the subtype `onMount` (retaining its result in `unmount`), then
register the subscriber; returns the token identifying the new
subscription. -/
def subscribeTo : Nat → Machine → CellId → SubAct → Nat × Machine
  | 0, m, c, a =>
      -- fuel artifact: register without the onMount step
      (m.nextTok, addSub { m with nextTok := m.nextTok + 1 } c m.nextTok a)
  | f + 1, m, c, a =>
      let m₁ := if (subsList m c).isEmpty then onMountRun f m c else m
      (m₁.nextTok, addSub { m₁ with nextTok := m₁.nextTok + 1 } c m₁.nextTok a)

/-- The subtype `onMount` together with the retaining assignment
`this.unmount = this.onMount()`: trivial for sync and async atoms
(whose `onMount` returns undefined, overwriting any retained producer
cleanup); for derived atoms, re-subscribe to every recorded dependency
and retain the closure that unsubscribes from all of them. -/
def onMountRun : Nat → Machine → CellId → Machine
  | 0, m, _ => m
  | f + 1, m, c =>
    match kindOf m c with
    | Kind.sync => setUnmount m c none
    | Kind.async _ _ => setUnmount m c none
    | Kind.derived _ dl => setUnmount (mountDeps f m c dl) c (some UF.derivedUF)

/-- The re-subscription loop of `DerivedAtom.onMount`. -/
def mountDeps : Nat → Machine → CellId → List (CellId × Nat) → Machine
  | 0, m, _, _ => m
  | _ + 1, m, _, [] => m
  | f + 1, m, c, (d, _) :: rest =>
      let r := subscribeTo f m d (SubAct.inval c)
      mountDeps f (setDepTok r.2 c d r.1) c rest

/-- `RAtom.notify` over a snapshot of the subscriber list: spies log an
event; an invalidation callback invalidates its derived cell. -/
def notifyL : Nat → Machine → List (Nat × SubAct) → Machine
  | 0, m, _ => m
  | _ + 1, m, [] => m
  | f + 1, m, (_, SubAct.spy k) :: rest => notifyL f (pushEv m (Ev.spy k)) rest
  | f + 1, m, (_, SubAct.inval d) :: rest => notifyL f (invalidate f m d) rest

/-- `RAtom.invalidate`: mark dirty, then notify every current
subscriber. -/
def invalidate : Nat → Machine → CellId → Machine
  | 0, m, c => modCell m c (fun cl => { cl with dirty := true })
  | f + 1, m, c =>
      let m₁ := modCell m c (fun cl => { cl with dirty := true })
      notifyL f m₁ (subsList m₁ c)

end

/-- `RAtom.update`: overwrite the cached state, then notify every
current subscriber (no equality check here; callers decide). -/
def update (f : Nat) (m : Machine) (c : CellId) (v : Val) : Machine :=
  let m₁ := modCell m c (fun cl => { cl with state := v })
  notifyL f m₁ (subsList m₁ c)

/-- The updater argument of `SyncAtom.send`: a literal next value or a
function of the current value (`isFunction` dispatch). -/
inductive SUpd where
  | val (v : Val)
  | fn (h : Val → Val)

def applySUpd : SUpd → Val → Val
  | SUpd.val v, _ => v
  | SUpd.fn h, s => h s

/-- `SyncAtom.send`: peek the current state, compute the next value,
skip when `Object.is`-equal, otherwise update. -/
def sendSync (f : Nat) (m : Machine) (c : CellId) (up : SUpd) : Except Exc Unit × Machine :=
  match peek f m c with
  | (Except.error e, m₁) => (Except.error e, m₁)
  | (Except.ok s, m₁) =>
    let next := applySUpd up s
    if next = s then (Except.ok (), m₁)
    else (Except.ok (), update f m₁ c next)

/-- The updater argument of `AsyncAtom.send`: additionally the RESET
sentinel. -/
inductive AUpd where
  | reset
  | val (v : Val)
  | fn (h : Val → Val)

def applyAUpd : AUpd → Val → Val
  | AUpd.reset, s => s
  | AUpd.val v, _ => v
  | AUpd.fn h, s => h s

/-- `AsyncAtom.send`: peeks first (so a pending cell raises its
suspension before the updater is even examined); on RESET, return the
status to uninitialized, invalidate, and invoke the retained unmount
cleanup if any; otherwise behave like `SyncAtom.send`. -/
def sendAsync (f : Nat) (m : Machine) (c : CellId) (up : AUpd) : Except Exc Unit × Machine :=
  match peek f m c with
  | (Except.error e, m₁) => (Except.error e, m₁)
  | (Except.ok s, m₁) =>
    match up with
    | AUpd.reset =>
        let m₂ := setStatus m₁ c Status.init
        let m₃ := invalidate f m₂ c
        let m₄ := match unmountOf m₃ c with
          | some u => runUF m₃ c u
          | none => m₃
        (Except.ok (), m₄)
    | AUpd.val v =>
        if v = s then (Except.ok (), m₁) else (Except.ok (), update f m₁ c v)
    | AUpd.fn h =>
        let next := h s
        if next = s then (Except.ok (), m₁) else (Except.ok (), update f m₁ c next)

/-- The resolution handler `AsyncAtom.read` installs on the pending
promise: when the promise settles with `v`, record the settlement, move
to resolved and `update(v)` (cache and notify).  Only meaningful while
pending; otherwise a no-op. -/
def settle (f : Nat) (m : Machine) (c : CellId) (v : Val) : Machine :=
  match statusOf m c with
  | Status.pending p =>
      let m₁ := { m with proms := m.proms ++ [(p, v)] }
      update f (setStatus m₁ c Status.resolved) c v
  | _ => m

/-- The outcome of the tolerant peek helper `peekAtom`: an immediate
value, the adoption of the carried pending promise, or a re-raised
genuine error (fuel exhaustion is folded into the latter). -/
inductive PRes where
  | now (v : Val)
  | awaitP (p : Nat)
  | errE
  deriving DecidableEq, Repr

/-- `peekAtom`: attempt `peek()`; a raised promise is returned (hence
adopted by the surrounding async function, with no second call to
`peek`); any other raised error is re-raised. -/
def peekAtomM (f : Nat) (m : Machine) (c : CellId) : PRes × Machine :=
  match peek f m c with
  | (Except.ok v, m₁) => (PRes.now v, m₁)
  | (Except.error (Exc.prom p), m₁) => (PRes.awaitP p, m₁)
  | (Except.error Exc.err, m₁) => (PRes.errE, m₁)
  | (Except.error Exc.fuel, m₁) => (PRes.errE, m₁)

/-- The value a settled promise carries. -/
def promVal (m : Machine) (p : Nat) : Option Val :=
  (m.proms.find? (fun q => q.1 = p)).map (fun q => q.2)

/-- Resolution of a tolerant peek once the machine has advanced: an
immediate value is returned as is; an adopted promise yields its
settled value, directly, with no further peek. -/
def tolerantVal (m : Machine) : PRes → Option Val
  | PRes.now v => some v
  | PRes.awaitP p => promVal m p
  | PRes.errE => none

/-- Constructors mirroring `syncAtom`, `asyncAtom` and `derivedAtom`. -/
def mkSync (v : Val) : Cell := { kind := Kind.sync, state := v }

def mkAsync (cleanup : Option Nat) : Cell := { kind := Kind.async cleanup Status.init }

def mkDerived (g : GExp) : Cell := { kind := Kind.derived g [] }

/-- All cells a getter can syntactically read. -/
def gReads : GExp → List CellId
  | GExp.const _ => []
  | GExp.fail => []
  | GExp.getA c => [c]
  | GExp.add a b => gReads a ++ gReads b
  | GExp.iteZ c t e => gReads c ++ gReads t ++ gReads e

/-- A cell kind that is not derived (its onMount is trivial). -/
def primKind : Kind → Bool
  | Kind.derived _ _ => false
  | _ => true

/-! ### Heap access lemmas -/

theorem modifyIdx_get_self (l : List Cell) (c : Nat) (h : Cell → Cell) :
    (modifyIdx l c h)[c]? = (l[c]?).map h := by
  induction l generalizing c with
  | nil => simp [modifyIdx]
  | cons x xs ih =>
    cases c with
    | zero => simp [modifyIdx]
    | succ n => simpa [modifyIdx] using ih n

theorem modifyIdx_get_ne (l : List Cell) (c d : Nat) (h : Cell → Cell)
    (hdc : d ≠ c) : (modifyIdx l c h)[d]? = l[d]? := by
  induction l generalizing c d with
  | nil => simp [modifyIdx]
  | cons x xs ih =>
    cases c with
    | zero =>
      cases d with
      | zero => exact absurd rfl hdc
      | succ n => simp [modifyIdx]
    | succ n =>
      cases d with
      | zero => simp [modifyIdx]
      | succ k => simpa [modifyIdx] using ih n k (by omega)

theorem modifyIdx_length (l : List Cell) (c : Nat) (h : Cell → Cell) :
    (modifyIdx l c h).length = l.length := by
  induction l generalizing c with
  | nil => simp [modifyIdx]
  | cons x xs ih =>
    cases c with
    | zero => simp [modifyIdx]
    | succ n => simpa [modifyIdx] using ih n

@[simp] theorem getCell_modCell_self (m : Machine) (c : CellId) (h : Cell → Cell) :
    getCell (modCell m c h) c = (getCell m c).map h :=
  modifyIdx_get_self m.cells c h

theorem getCell_modCell_ne (m : Machine) (c d : CellId) (h : Cell → Cell)
    (hdc : d ≠ c) : getCell (modCell m c h) d = getCell m d :=
  modifyIdx_get_ne m.cells c d h hdc

@[simp] theorem modCell_timeouts (m : Machine) (c : CellId) (h : Cell → Cell) :
    (modCell m c h).timeouts = m.timeouts := rfl

@[simp] theorem modCell_events (m : Machine) (c : CellId) (h : Cell → Cell) :
    (modCell m c h).events = m.events := rfl

@[simp] theorem modCell_nextTok (m : Machine) (c : CellId) (h : Cell → Cell) :
    (modCell m c h).nextTok = m.nextTok := rfl

@[simp] theorem modCell_nextProm (m : Machine) (c : CellId) (h : Cell → Cell) :
    (modCell m c h).nextProm = m.nextProm := rfl

@[simp] theorem modCell_proms (m : Machine) (c : CellId) (h : Cell → Cell) :
    (modCell m c h).proms = m.proms := rfl

@[simp] theorem modCell_length (m : Machine) (c : CellId) (h : Cell → Cell) :
    (modCell m c h).cells.length = m.cells.length :=
  modifyIdx_length m.cells c h

@[simp] theorem getCell_pushEv (m : Machine) (e : Ev) (c : CellId) :
    getCell (pushEv m e) c = getCell m c := rfl

@[simp] theorem pushEv_timeouts (m : Machine) (e : Ev) :
    (pushEv m e).timeouts = m.timeouts := rfl

@[simp] theorem pushEv_events (m : Machine) (e : Ev) :
    (pushEv m e).events = m.events ++ [e] := rfl

@[simp] theorem pushEv_nextTok (m : Machine) (e : Ev) :
    (pushEv m e).nextTok = m.nextTok := rfl

@[simp] theorem pushEv_nextProm (m : Machine) (e : Ev) :
    (pushEv m e).nextProm = m.nextProm := rfl

@[simp] theorem pushEv_proms (m : Machine) (e : Ev) :
    (pushEv m e).proms = m.proms := rfl

@[simp] theorem pushEv_length (m : Machine) (e : Ev) :
    (pushEv m e).cells.length = m.cells.length := rfl

@[simp] theorem getCell_withNextProm (m : Machine) (x : Nat) (c : CellId) :
    getCell { m with nextProm := x } c = getCell m c := rfl

@[simp] theorem getCell_withNextTok (m : Machine) (x : Nat) (c : CellId) :
    getCell { m with nextTok := x } c = getCell m c := rfl

@[simp] theorem getCell_withTimeouts (m : Machine) (x : List CellId) (c : CellId) :
    getCell { m with timeouts := x } c = getCell m c := rfl

@[simp] theorem getCell_withProms (m : Machine) (x : List (Nat × Val)) (c : CellId) :
    getCell { m with proms := x } c = getCell m c := rfl

/-! ### What a notification cascade can and cannot do

The notification closure (`notifyL` and `invalidate`) only sets dirty
flags and appends spy events: kinds (hence statuses and dependency
maps), states, subscriber lists, unmount fields, the timeout queue, the
counters and the promise table are untouched, dirty flags never go back
to `false`, and the event log only grows. -/

/-- The invariant preserved by a notification cascade. -/
def NPres (m m' : Machine) : Prop :=
  (∀ c, kindOf m' c = kindOf m c) ∧
  (∀ c, stateOf m' c = stateOf m c) ∧
  (∀ c, subsList m' c = subsList m c) ∧
  (∀ c, unmountOf m' c = unmountOf m c) ∧
  (∀ c, dirtyOf m c = true → dirtyOf m' c = true) ∧
  m'.timeouts = m.timeouts ∧ m'.nextTok = m.nextTok ∧
  m'.nextProm = m.nextProm ∧ m'.proms = m.proms ∧
  m'.cells.length = m.cells.length ∧
  (∀ e ∈ m.events, e ∈ m'.events)

theorem NPres.refl (m : Machine) : NPres m m :=
  ⟨fun _ => rfl, fun _ => rfl, fun _ => rfl, fun _ => rfl, fun _ h => h,
   rfl, rfl, rfl, rfl, rfl, fun _ h => h⟩

theorem NPres.trans {m₁ m₂ m₃ : Machine} (h₁ : NPres m₁ m₂) (h₂ : NPres m₂ m₃) :
    NPres m₁ m₃ := by
  obtain ⟨k1, s1, u1, um1, d1, t1, n1, p1, pr1, l1, e1⟩ := h₁
  obtain ⟨k2, s2, u2, um2, d2, t2, n2, p2, pr2, l2, e2⟩ := h₂
  exact ⟨fun c => (k2 c).trans (k1 c), fun c => (s2 c).trans (s1 c),
    fun c => (u2 c).trans (u1 c), fun c => (um2 c).trans (um1 c),
    fun c h => d2 c (d1 c h), t2.trans t1, n2.trans n1, p2.trans p1,
    pr2.trans pr1, l2.trans l1, fun e h => e2 e (e1 e h)⟩

theorem NPres.pushEv (m : Machine) (e : Ev) : NPres m (pushEv m e) := by
  refine ⟨fun _ => rfl, fun _ => rfl, fun _ => rfl, fun _ => rfl, fun _ h => h,
    rfl, rfl, rfl, rfl, rfl, fun x hx => ?_⟩
  simp [hx]

theorem NPres.setDirty (m : Machine) (c : CellId) :
    NPres m (modCell m c (fun cl => { cl with dirty := true })) := by
  have hcell : ∀ d, d ≠ c →
      getCell (modCell m c (fun cl => { cl with dirty := true })) d = getCell m d :=
    fun d hdc => getCell_modCell_ne m c d _ hdc
  refine ⟨?_, ?_, ?_, ?_, ?_, rfl, rfl, rfl, rfl, by simp, fun _ h => h⟩
  all_goals
    intro d
    by_cases hdc : d = c
  case pos =>
    subst hdc
    simp only [kindOf, cellOf, getCell_modCell_self]
    cases hg : getCell m d <;> simp
  case neg => simp [kindOf, cellOf, hcell d hdc]
  case pos =>
    subst hdc
    simp only [stateOf, cellOf, getCell_modCell_self]
    cases hg : getCell m d <;> simp
  case neg => simp [stateOf, cellOf, hcell d hdc]
  case pos =>
    subst hdc
    simp only [subsList, cellOf, getCell_modCell_self]
    cases hg : getCell m d <;> simp
  case neg => simp [subsList, cellOf, hcell d hdc]
  case pos =>
    subst hdc
    simp only [unmountOf, cellOf, getCell_modCell_self]
    cases hg : getCell m d <;> simp
  case neg => simp [unmountOf, cellOf, hcell d hdc]
  case pos =>
    intro h
    subst hdc
    simp only [dirtyOf, cellOf, getCell_modCell_self]
    cases hg : getCell m d with
    | none =>
      simp
      rfl
    | some cl => simp
  case neg =>
    intro h
    simpa [dirtyOf, cellOf, hcell d hdc] using h

@[simp] theorem dirtyOf_setDirty_self (m : Machine) (c : CellId) :
    dirtyOf (modCell m c (fun cl => { cl with dirty := true })) c = true := by
  simp only [dirtyOf, cellOf, getCell_modCell_self]
  cases hg : getCell m c <;> simp [hg, default]

theorem notifyL_invalidate_pres :
    ∀ f, (∀ m l, NPres m (notifyL f m l)) ∧ (∀ m c, NPres m (invalidate f m c)) := by
  intro f
  induction f with
  | zero =>
    constructor
    · intro m l; simpa [notifyL] using NPres.refl m
    · intro m c; simpa [invalidate] using NPres.setDirty m c
  | succ f ih =>
    constructor
    · intro m l
      match l with
      | [] => simpa [notifyL] using NPres.refl m
      | (t, SubAct.spy k) :: rest =>
        exact (NPres.pushEv m (Ev.spy k)).trans (by simpa [notifyL] using ih.1 (pushEv m (Ev.spy k)) rest)
      | (t, SubAct.inval d) :: rest =>
        exact (ih.2 m d).trans (by simpa [notifyL] using ih.1 (invalidate f m d) rest)
    · intro m c
      exact (NPres.setDirty m c).trans
        (by simpa [invalidate] using
          ih.1 (modCell m c (fun cl => { cl with dirty := true })) _)

theorem notifyL_pres (f : Nat) (m : Machine) (l : List (Nat × SubAct)) :
    NPres m (notifyL f m l) := (notifyL_invalidate_pres f).1 m l

theorem invalidate_pres (f : Nat) (m : Machine) (c : CellId) :
    NPres m (invalidate f m c) := (notifyL_invalidate_pres f).2 m c

theorem update_pres (f : Nat) (m : Machine) (c : CellId) (v : Val) :
    NPres (modCell m c (fun cl => { cl with state := v })) (update f m c v) :=
  notifyL_pres f _ _

theorem NPres.kindEq {m m' : Machine} (h : NPres m m') :
    ∀ c, kindOf m' c = kindOf m c := h.1

theorem NPres.stateEq {m m' : Machine} (h : NPres m m') :
    ∀ c, stateOf m' c = stateOf m c := h.2.1

theorem NPres.subsEq {m m' : Machine} (h : NPres m m') :
    ∀ c, subsList m' c = subsList m c := h.2.2.1

theorem NPres.unmountEq {m m' : Machine} (h : NPres m m') :
    ∀ c, unmountOf m' c = unmountOf m c := h.2.2.2.1

theorem NPres.dirtyMono {m m' : Machine} (h : NPres m m') :
    ∀ c, dirtyOf m c = true → dirtyOf m' c = true := h.2.2.2.2.1

theorem NPres.timeoutsEq {m m' : Machine} (h : NPres m m') :
    m'.timeouts = m.timeouts := h.2.2.2.2.2.1

theorem NPres.nextTokEq {m m' : Machine} (h : NPres m m') :
    m'.nextTok = m.nextTok := h.2.2.2.2.2.2.1

theorem NPres.nextPromEq {m m' : Machine} (h : NPres m m') :
    m'.nextProm = m.nextProm := h.2.2.2.2.2.2.2.1

theorem NPres.promsEq {m m' : Machine} (h : NPres m m') :
    m'.proms = m.proms := h.2.2.2.2.2.2.2.2.1

theorem NPres.lengthEq {m m' : Machine} (h : NPres m m') :
    m'.cells.length = m.cells.length := h.2.2.2.2.2.2.2.2.2.1

theorem NPres.eventsSub {m m' : Machine} (h : NPres m m') :
    ∀ e ∈ m.events, e ∈ m'.events := h.2.2.2.2.2.2.2.2.2.2

theorem NPres.statusEq {m m' : Machine} (h : NPres m m') (c : CellId) :
    statusOf m' c = statusOf m c := by
  simp [statusOf, h.kindEq c]

/-- An invalidation leaves its target dirty, whatever the cascade does. -/
theorem invalidate_dirty (f : Nat) (m : Machine) (c : CellId) :
    dirtyOf (invalidate f m c) c = true := by
  cases f with
  | zero => simp [invalidate, dirtyOf_setDirty_self m c]
  | succ f =>
    have h := (notifyL_pres f (modCell m c (fun cl => { cl with dirty := true }))
      (subsList (modCell m c (fun cl => { cl with dirty := true })) c)).2.2.2.2.1 c
    simpa [invalidate] using h (dirtyOf_setDirty_self m c)

/-- A spy subscriber present in the notified snapshot is notified
(its event appears in the log), given enough fuel. -/
theorem notifyL_spy (l : List (Nat × SubAct)) :
    ∀ f m t k, l.length ≤ f → (t, SubAct.spy k) ∈ l →
      Ev.spy k ∈ (notifyL f m l).events := by
  induction l with
  | nil => intro f m t k _ hm; simp at hm
  | cons x rest ih =>
    intro f m t k hf hm
    match f with
    | 0 => simp at hf
    | f + 1 =>
      have hrest : rest.length ≤ f := by simpa using hf
      rcases List.mem_cons.1 hm with hx | hx
      · subst hx
        have h1 : Ev.spy k ∈ (pushEv m (Ev.spy k)).events := by simp
        have h2 := (notifyL_pres f (pushEv m (Ev.spy k)) rest).2.2.2.2.2.2.2.2.2.2
        simpa [notifyL] using h2 _ h1
      · obtain ⟨t', a⟩ := x
        cases a with
        | spy k' => simpa [notifyL] using ih f (pushEv m (Ev.spy k')) t k hrest hx
        | inval d => simpa [notifyL] using ih f (invalidate f m d) t k hrest hx

/-- An invalidation subscriber present in the notified snapshot leaves
its derived cell dirty, given enough fuel. -/
theorem notifyL_inval (l : List (Nat × SubAct)) :
    ∀ f m t d, l.length ≤ f → (t, SubAct.inval d) ∈ l →
      dirtyOf (notifyL f m l) d = true := by
  induction l with
  | nil => intro f m t d _ hm; simp at hm
  | cons x rest ih =>
    intro f m t d hf hm
    match f with
    | 0 => simp at hf
    | f + 1 =>
      have hrest : rest.length ≤ f := by simpa using hf
      rcases List.mem_cons.1 hm with hx | hx
      · subst hx
        have h1 := invalidate_dirty f m d
        have h2 := (notifyL_pres f (invalidate f m d) rest).2.2.2.2.1 d
        simpa [notifyL] using h2 h1
      · obtain ⟨t', a⟩ := x
        cases a with
        | spy k' => simpa [notifyL] using ih f (pushEv m (Ev.spy k')) t d hrest hx
        | inval e => simpa [notifyL] using ih f (invalidate f m e) t d hrest hx

/-- A spy subscribed to a derived cell that an invalidation subscriber
in the snapshot invalidates is itself notified, given enough fuel. -/
theorem notifyL_inval_spy (l : List (Nat × SubAct)) :
    ∀ f m t d t₂ k, l.length + (subsList m d).length < f →
      (t, SubAct.inval d) ∈ l → (t₂, SubAct.spy k) ∈ subsList m d →
      Ev.spy k ∈ (notifyL f m l).events := by
  induction l with
  | nil => intro f m t d t₂ k _ hm _; simp at hm
  | cons x rest ih =>
    intro f m t d t₂ k hf hm hs
    match f with
    | 0 => omega
    | f + 1 =>
      rcases List.mem_cons.1 hm with hx | hx
      · subst hx
        have hsb : (subsList m d).length < f := by
          have := List.length_pos.2 (List.ne_nil_of_mem hs)
          simp at hf; omega
        match f, hsb with
        | f + 1, hsb =>
          have hsubs :
              subsList (modCell m d (fun cl => { cl with dirty := true })) d
                = subsList m d := (NPres.setDirty m d).2.2.1 d
          have h1 : Ev.spy k ∈ (invalidate (f + 1) m d).events := by
            have := notifyL_spy
              (subsList (modCell m d (fun cl => { cl with dirty := true })) d) f
              (modCell m d (fun cl => { cl with dirty := true })) t₂ k
              (by rw [hsubs]; omega) (by rw [hsubs]; exact hs)
            simpa [invalidate] using this
          have h2 := (notifyL_pres (f + 1) (invalidate (f + 1) m d)
            rest).2.2.2.2.2.2.2.2.2.2
          simpa [notifyL] using h2 _ h1
      · obtain ⟨t', a⟩ := x
        cases a with
        | spy k' =>
          have hsubs : subsList (pushEv m (Ev.spy k')) d = subsList m d := rfl
          have : rest.length + (subsList (pushEv m (Ev.spy k')) d).length < f := by
            rw [hsubs]; simp at hf; omega
          simpa [notifyL] using ih f (pushEv m (Ev.spy k')) t d t₂ k this hx hs
        | inval e =>
          have hsubs : subsList (invalidate f m e) d = subsList m d :=
            (invalidate_pres f m e).2.2.1 d
          have hb : rest.length + (subsList (invalidate f m e) d).length < f := by
            rw [hsubs]; simp at hf; omega
          have hs' : (t₂, SubAct.spy k) ∈ subsList (invalidate f m e) d := by
            rw [hsubs]; exact hs
          simpa [notifyL] using ih f (invalidate f m e) t d t₂ k hb hx hs'

/-! ### Claim C4: the caching contract of peek -/

/-- A failing async read leaves the dirty flag and the cached state of
the cell untouched (the only mutations of the init branch are the
status, the retained unmount, the promise counter and the log). -/
theorem readC_async_err_frame (f : Nat) (m : Machine) (c : CellId) (cell : Cell)
    (h : getCell m c = some cell) (cln : Option Nat) (st : Status)
    (hk : cell.kind = Kind.async cln st) (e : Exc) (m₁ : Machine)
    (hr : readC f m c = (Except.error e, m₁)) :
    dirtyOf m₁ c = dirtyOf m c ∧ stateOf m₁ c = stateOf m c := by
  match f with
  | 0 =>
    simp only [readC] at hr
    injection hr with h1 h2
    subst h2
    exact ⟨rfl, rfl⟩
  | f + 1 =>
    match st with
    | Status.init =>
      simp only [readC, h, hk] at hr
      injection hr with h1 h2
      subst h2
      constructor
      · simp [dirtyOf, cellOf, h]
      · simp [stateOf, cellOf, h]
    | Status.pending p =>
      simp only [readC, h, hk] at hr
      injection hr with h1 h2
      subst h2
      exact ⟨rfl, rfl⟩
    | Status.resolved => simp [readC, h, hk] at hr

/-- C4: `peek()` returns the cached state unchanged when the dirty flag
is false; when dirty it invokes the subtype's `read()`, caches the
result, clears the dirty flag and returns it; and when `read()` raises
(a suspension or any error), `peek` performs no write-back and the
signal propagates — in particular for an async cell the dirty flag and
cached state are exactly as before the read. -/
theorem c4_peek_contract (f : Nat) (m : Machine) (c : CellId) (cell : Cell)
    (h : getCell m c = some cell) :
    (cell.dirty = false → peek (f + 1) m c = (Except.ok cell.state, m)) ∧
    (∀ v m₁, cell.dirty = true → readC f m c = (Except.ok v, m₁) →
      peek (f + 1) m c =
        (Except.ok v, modCell m₁ c (fun cl => { cl with state := v, dirty := false }))) ∧
    (∀ e m₁, cell.dirty = true → readC f m c = (Except.error e, m₁) →
      peek (f + 1) m c = (Except.error e, m₁) ∧
      (∀ cln st, cell.kind = Kind.async cln st →
        dirtyOf m₁ c = dirtyOf m c ∧ stateOf m₁ c = stateOf m c)) := by
  refine ⟨?_, ?_, ?_⟩
  · intro hd
    simp [peek, h, hd]
  · intro v m₁ hd hr
    simp [peek, h, hd, hr]
  · intro e m₁ hd hr
    constructor
    · simp [peek, h, hd, hr]
    · intro cln st hk
      exact readC_async_err_frame f m c cell h cln st hk e m₁ hr

/-- Concrete instance for the dirty-read branch of C4: a fresh sync
cell caches its read on first peek. -/
theorem c4_peek_contract_witness :
    peek 2 { cells := [mkSync 3] } 0 =
      (Except.ok 3, modCell { cells := [mkSync 3] } 0
        (fun cl => { cl with state := 3, dirty := false })) :=
  (c4_peek_contract 1 { cells := [mkSync 3] } 0 (mkSync 3) rfl).2.1 3
    { cells := [mkSync 3] } rfl rfl

/-! ### Shape lemmas for peek and the subclass reads -/

theorem peek_clean (f : Nat) (m : Machine) (c : CellId) (cell : Cell)
    (h : getCell m c = some cell) (hd : cell.dirty = false) :
    peek (f + 1) m c = (Except.ok cell.state, m) := by
  simp [peek, h, hd]

theorem peek_dirty_ok (f : Nat) (m : Machine) (c : CellId) (cell : Cell)
    (h : getCell m c = some cell) (hd : cell.dirty = true) (v : Val) (m₁ : Machine)
    (hr : readC f m c = (Except.ok v, m₁)) :
    peek (f + 1) m c =
      (Except.ok v, modCell m₁ c (fun cl => { cl with state := v, dirty := false })) := by
  simp [peek, h, hd, hr]

theorem peek_dirty_err (f : Nat) (m : Machine) (c : CellId) (cell : Cell)
    (h : getCell m c = some cell) (hd : cell.dirty = true) (e : Exc) (m₁ : Machine)
    (hr : readC f m c = (Except.error e, m₁)) :
    peek (f + 1) m c = (Except.error e, m₁) := by
  simp [peek, h, hd, hr]

theorem readC_sync (f : Nat) (m : Machine) (c : CellId) (cell : Cell)
    (h : getCell m c = some cell) (hk : cell.kind = Kind.sync) :
    readC (f + 1) m c = (Except.ok cell.state, m) := by
  simp [readC, h, hk]

theorem readC_resolved (f : Nat) (m : Machine) (c : CellId) (cell : Cell)
    (h : getCell m c = some cell) (cln : Option Nat)
    (hk : cell.kind = Kind.async cln Status.resolved) :
    readC (f + 1) m c = (Except.ok cell.state, m) := by
  simp [readC, h, hk]

theorem readC_pending (f : Nat) (m : Machine) (c : CellId) (cell : Cell)
    (h : getCell m c = some cell) (cln : Option Nat) (p : Nat)
    (hk : cell.kind = Kind.async cln (Status.pending p)) :
    readC (f + 1) m c = (Except.error (Exc.prom p), m) := by
  simp [readC, h, hk]

/-- The uninitialized read: starts the producer, retains its cleanup,
moves to pending on a fresh promise, and raises that promise. -/
theorem readC_init (f : Nat) (m : Machine) (c : CellId) (cell : Cell)
    (h : getCell m c = some cell) (cln : Option Nat)
    (hk : cell.kind = Kind.async cln Status.init) :
    ∃ m₁, readC (f + 1) m c = (Except.error (Exc.prom m.nextProm), m₁) ∧
      getCell m₁ c = some { cell with kind := Kind.async cln (Status.pending m.nextProm),
                                      unmount := cln.map UF.cleanup } ∧
      Ev.producerStart c ∈ m₁.events ∧ m₁.nextProm = m.nextProm + 1 ∧
      m₁.proms = m.proms ∧ m₁.timeouts = m.timeouts ∧
      m₁.cells.length = m.cells.length ∧
      (∀ d, d ≠ c → getCell m₁ d = getCell m d) ∧
      (∀ e ∈ m.events, e ∈ m₁.events) := by
  refine ⟨pushEv (modCell { m with nextProm := m.nextProm + 1 } c
      (fun cl => { cl with kind := Kind.async cln (Status.pending m.nextProm),
                           unmount := cln.map UF.cleanup })) (Ev.producerStart c),
    by simp [readC, h, hk], ?_, ?_, rfl, rfl, rfl, by simp, ?_, ?_⟩
  · simp [h]
  · simp
  · intro d hdc
    simp [getCell_modCell_ne _ _ _ _ hdc]
  · intro e he
    simp [he]

/-- Peeking an async cell in the resolved state succeeds with the cached
state, whatever the dirty flag, and leaves the dirty flag cleared with
everything else in the cell untouched. -/
theorem peek_resolved_spec (f : Nat) (m : Machine) (c : CellId) (cell : Cell)
    (h : getCell m c = some cell) (cln : Option Nat)
    (hk : cell.kind = Kind.async cln Status.resolved) :
    ∃ m₁, peek (f + 2) m c = (Except.ok cell.state, m₁) ∧
      getCell m₁ c = some { cell with dirty := false } ∧
      m₁.events = m.events ∧ m₁.nextProm = m.nextProm ∧ m₁.proms = m.proms ∧
      m₁.timeouts = m.timeouts ∧ m₁.cells.length = m.cells.length ∧
      (∀ d, d ≠ c → getCell m₁ d = getCell m d) := by
  cases hd : cell.dirty
  · refine ⟨m, peek_clean (f + 1) m c cell h hd, ?_, rfl, rfl, rfl, rfl, rfl, fun _ _ => rfl⟩
    rw [h]
    cases cell
    simp at hd
    simp [hd]
  · refine ⟨_, peek_dirty_ok (f + 1) m c cell h hd cell.state m
      (readC_resolved f m c cell h cln hk), ?_, rfl, rfl, rfl, rfl, by simp, ?_⟩
    · rw [getCell_modCell_self, h]
      cases cell
      simp
    · intro d hdc
      simp [getCell_modCell_ne _ _ _ _ hdc]

/-- Peeking a sync cell succeeds with the stored state, whatever the
dirty flag, and leaves the dirty flag cleared. -/
theorem peek_sync_spec (f : Nat) (m : Machine) (c : CellId) (cell : Cell)
    (h : getCell m c = some cell) (hk : cell.kind = Kind.sync) :
    ∃ m₁, peek (f + 2) m c = (Except.ok cell.state, m₁) ∧
      getCell m₁ c = some { cell with dirty := false } ∧
      m₁.events = m.events ∧ m₁.nextProm = m.nextProm ∧ m₁.proms = m.proms ∧
      m₁.timeouts = m.timeouts ∧ m₁.cells.length = m.cells.length ∧
      m₁.nextTok = m.nextTok ∧
      (∀ d, d ≠ c → getCell m₁ d = getCell m d) := by
  cases hd : cell.dirty
  · refine ⟨m, peek_clean (f + 1) m c cell h hd, ?_, rfl, rfl, rfl, rfl, rfl, rfl,
      fun _ _ => rfl⟩
    rw [h]
    cases cell
    simp at hd
    simp [hd]
  · refine ⟨_, peek_dirty_ok (f + 1) m c cell h hd cell.state m
      (readC_sync f m c cell h hk), ?_, rfl, rfl, rfl, rfl, by simp, rfl, ?_⟩
    · rw [getCell_modCell_self, h]
      cases cell
      simp
    · intro d hdc
      simp [getCell_modCell_ne _ _ _ _ hdc]

theorem statusOf_eq {m : Machine} {c : CellId} {cell : Cell}
    (h : getCell m c = some cell) {cln : Option Nat} {st : Status}
    (hk : cell.kind = Kind.async cln st) : statusOf m c = st := by
  simp [statusOf, kindOf, cellOf, h, hk]

theorem find?_append_of_none {α : Type} (l₁ l₂ : List α) (p : α → Bool)
    (h : l₁.find? p = none) : (l₁ ++ l₂).find? p = l₂.find? p := by
  induction l₁ with
  | nil => simp
  | cons x xs ih =>
    match hp : p x with
    | true => simp [List.find?_cons, hp] at h
    | false =>
      simp only [List.find?_cons, hp] at h
      simp only [List.cons_append, List.find?_cons, hp]
      exact ih h

/-- Settling the pending promise: the settlement is recorded in the
promise table, the cell moves to resolved, its state becomes the
settled value — and the dirty flag is exactly what it was (the handler
never clears it). -/
theorem settle_spec (f : Nat) (m : Machine) (c : CellId) (cell : Cell)
    (h : getCell m c = some cell) (cln : Option Nat) (p : Nat)
    (hk : cell.kind = Kind.async cln (Status.pending p)) (v : Val)
    (hfresh : m.proms.find? (fun q => q.1 = p) = none) :
    statusOf (settle f m c v) c = Status.resolved ∧
    stateOf (settle f m c v) c = v ∧
    (cell.dirty = true → dirtyOf (settle f m c v) c = true) ∧
    unmountOf (settle f m c v) c = cell.unmount ∧
    subsList (settle f m c v) c = cell.subs ∧
    promVal (settle f m c v) p = some v ∧
    (settle f m c v).cells.length = m.cells.length := by
  have hst : statusOf m c = Status.pending p := statusOf_eq h hk
  have hsettle : settle f m c v =
      update f (setStatus { m with proms := m.proms ++ [(p, v)] } c Status.resolved) c v := by
    simp only [settle, hst]
  have hg₂ : getCell (setStatus { m with proms := m.proms ++ [(p, v)] } c Status.resolved) c
      = some { cell with kind := Kind.async cln Status.resolved } := by
    obtain ⟨k, dJ, sJ, subJ, uJ⟩ := cell
    simp only [] at hk
    subst hk
    rw [setStatus, getCell_modCell_self]
    rw [show getCell { m with proms := m.proms ++ [(p, v)] } c = some _ from h]
    rfl
  have hupdate : update f (setStatus { m with proms := m.proms ++ [(p, v)] } c Status.resolved) c v
      = notifyL f
        (modCell (setStatus { m with proms := m.proms ++ [(p, v)] } c Status.resolved) c
          (fun cl => { cl with state := v }))
        (subsList
          (modCell (setStatus { m with proms := m.proms ++ [(p, v)] } c Status.resolved) c
            (fun cl => { cl with state := v })) c) := rfl
  have hg₃ : getCell (modCell (setStatus { m with proms := m.proms ++ [(p, v)] } c Status.resolved) c
      (fun cl => { cl with state := v })) c =
      some { cell with kind := Kind.async cln Status.resolved, state := v } := by
    rw [getCell_modCell_self, hg₂]
    rfl
  rw [hsettle, hupdate]
  have hp := notifyL_pres f
    (modCell (setStatus { m with proms := m.proms ++ [(p, v)] } c Status.resolved) c
      (fun cl => { cl with state := v }))
    (subsList
      (modCell (setStatus { m with proms := m.proms ++ [(p, v)] } c Status.resolved) c
        (fun cl => { cl with state := v })) c)
  refine ⟨?_, ?_, ?_, ?_, ?_, ?_, ?_⟩
  · rw [show ∀ x : Machine, statusOf x c = match kindOf x c with
      | Kind.async _ st => st
      | _ => Status.init from fun _ => rfl, hp.1 c]
    simp [kindOf, cellOf, hg₃]
  · rw [show stateOf _ c = _ from hp.2.1 c]
    simp [stateOf, cellOf, hg₃]
  · intro hd
    exact hp.2.2.2.2.1 c (by simp [dirtyOf, cellOf, hg₃, hd])
  · rw [show unmountOf _ c = _ from hp.2.2.2.1 c]
    simp [unmountOf, cellOf, hg₃]
  · rw [show subsList _ c = _ from hp.2.2.1 c]
    simp [subsList, cellOf, hg₃]
  · rw [promVal, hp.2.2.2.2.2.2.2.2.1]
    rw [show (modCell (setStatus { m with proms := m.proms ++ [(p, v)] } c Status.resolved) c
      (fun cl => { cl with state := v })).proms = m.proms ++ [(p, v)] from rfl]
    rw [find?_append_of_none _ _ _ hfresh]
    simp
  · rw [hp.2.2.2.2.2.2.2.2.2.1]
    simp [setStatus]

theorem lt_of_getCell_some {m : Machine} {c : CellId} {cell : Cell}
    (h : getCell m c = some cell) : c < m.cells.length := by
  rcases Nat.lt_or_ge c m.cells.length with hlt | hge
  · exact hlt
  · rw [getCell, List.getElem?_eq_none hge] at h
    exact Option.noConfusion h

theorem getCell_cellOf {m : Machine} {c : CellId} (hlt : c < m.cells.length) :
    getCell m c = some (cellOf m c) := by
  rw [cellOf, getCell, List.getElem?_eq_getElem hlt]
  rfl

/-! ### Claim C7: idempotent suspension while pending -/

/-- C7: the uninitialized read stores the pending promise it raises;
while pending, every subsequent `read()` — and hence `peek()` — raises
exactly that stored promise, with the machine unchanged. -/
theorem c7_pending_idempotent (f : Nat) (m : Machine) (c : CellId) (cell : Cell)
    (h : getCell m c = some cell) (cln : Option Nat) :
    (cell.kind = Kind.async cln Status.init →
      ∃ m₁, readC (f + 1) m c = (Except.error (Exc.prom m.nextProm), m₁) ∧
        statusOf m₁ c = Status.pending m.nextProm) ∧
    (∀ p, cell.kind = Kind.async cln (Status.pending p) →
      readC (f + 1) m c = (Except.error (Exc.prom p), m) ∧
      (cell.dirty = true → peek (f + 2) m c = (Except.error (Exc.prom p), m))) := by
  constructor
  · intro hk
    obtain ⟨m₁, hr, hg₁, -⟩ := readC_init f m c cell h cln hk
    exact ⟨m₁, hr, statusOf_eq hg₁ rfl⟩
  · intro p hk
    have hr := readC_pending f m c cell h cln p hk
    refine ⟨hr, fun hd => ?_⟩
    exact peek_dirty_err (f + 1) m c cell h hd _ _ (readC_pending f m c cell h cln p hk)

/-- Concrete async machines used by the async claims: a fresh cell whose
producer returns cleanup number 7; the machine after the first peek
(pending on promise 0); the machine after that promise settles with
42. -/
def mAsyncInit : Machine := { cells := [mkAsync (some 7)] }

def mAsyncPend : Machine := (peek 2 mAsyncInit 0).2

def mAsyncRes : Machine := settle 2 mAsyncPend 0 42

/-- The pending cell of `mAsyncPend`, spelled out. -/
def cellPend : Cell :=
  { kind := Kind.async (some 7) (Status.pending 0), dirty := true, state := 0,
    subs := [], unmount := some (UF.cleanup 7) }

theorem c7_pending_idempotent_witness :
    readC 3 mAsyncPend 0 = (Except.error (Exc.prom 0), mAsyncPend) ∧
    peek 4 mAsyncPend 0 = (Except.error (Exc.prom 0), mAsyncPend) := by
  have h := (c7_pending_idempotent 2 mAsyncPend 0 cellPend (by decide) (some 7)).2 0 rfl
  exact ⟨h.1, h.2 rfl⟩

/-! ### Claim C3: the resolved/pending invariant of async cells -/

/-- C3 fails as stated: immediately after the pending promise settles
(the observable point right after the resolution handler ran), the cell
of `mAsyncRes` has `status = resolved` while its dirty flag is still
`true`, refuting the claimed implication that resolved entails
`dirty = false`. -/
theorem c3_counterexample :
    statusOf mAsyncRes 0 = Status.resolved ∧ dirtyOf mAsyncRes 0 = true := by decide

/-- C3 (amended): while pending, `read()` signals suspension; once the
pending promise settles, the status is resolved, the state holds the
resolved value, and `peek()` returns it without suspension — but the
dirty flag is not cleared by the transition itself (it may stay `true`
until the next `peek()` clears it). -/
theorem c3_resolved_state (f f' : Nat) (m : Machine) (c : CellId) (cell : Cell)
    (h : getCell m c = some cell) (cln : Option Nat) (p : Nat)
    (hk : cell.kind = Kind.async cln (Status.pending p))
    (hfresh : m.proms.find? (fun q => q.1 = p) = none) (v : Val) :
    readC (f + 1) m c = (Except.error (Exc.prom p), m) ∧
    statusOf (settle f m c v) c = Status.resolved ∧
    stateOf (settle f m c v) c = v ∧
    ∃ m₂, peek (f' + 2) (settle f m c v) c = (Except.ok v, m₂) ∧
      dirtyOf m₂ c = false ∧ stateOf m₂ c = v := by
  obtain ⟨hstat, hstate, hdirty, hum, hsubs, hprom, hlen⟩ :=
    settle_spec f m c cell h cln p hk v hfresh
  refine ⟨readC_pending f m c cell h cln p hk, hstat, hstate, ?_⟩
  have hlt : c < (settle f m c v).cells.length := by
    rw [hlen]; exact lt_of_getCell_some h
  have hg : getCell (settle f m c v) c = some (cellOf (settle f m c v) c) :=
    getCell_cellOf hlt
  have h2 : kindOf (settle f m c v) c = (cellOf (settle f m c v) c).kind := rfl
  have hkind : ∃ cln', (cellOf (settle f m c v) c).kind = Kind.async cln' Status.resolved := by
    have h1 : statusOf (settle f m c v) c = Status.resolved := hstat
    cases hkk : (cellOf (settle f m c v) c).kind with
    | sync => rw [statusOf, h2, hkk] at h1; simp at h1
    | async cln' st =>
      rw [statusOf, h2, hkk] at h1
      simp only [] at h1
      exact ⟨cln', by rw [h1]⟩
    | derived g dl => rw [statusOf, h2, hkk] at h1; simp at h1
  obtain ⟨cln', hkind⟩ := hkind
  obtain ⟨m₂, hpeek, hg₂, -⟩ :=
    peek_resolved_spec f' (settle f m c v) c (cellOf (settle f m c v) c) hg cln' hkind
  have hsv : (cellOf (settle f m c v) c).state = v := hstate
  refine ⟨m₂, by rw [hpeek, hsv], ?_, ?_⟩
  · simp [dirtyOf, cellOf, hg₂]
  · simpa [stateOf, cellOf, hg₂] using hsv

theorem c3_resolved_state_witness :
    readC 3 mAsyncPend 0 = (Except.error (Exc.prom 0), mAsyncPend) ∧
    statusOf (settle 2 mAsyncPend 0 42) 0 = Status.resolved ∧
    stateOf (settle 2 mAsyncPend 0 42) 0 = 42 ∧
    ∃ m₂, peek 4 (settle 2 mAsyncPend 0 42) 0 = (Except.ok 42, m₂) ∧
      dirtyOf m₂ 0 = false ∧ stateOf m₂ 0 = 42 :=
  c3_resolved_state 2 2 mAsyncPend 0 cellPend (by decide) (some 7) 0 rfl (by decide) 42

/-! ### Claim C2: the reset command of async cells -/

/-- C2 fails as stated: `AsyncAtom.send` peeks before examining the
updater, so sending RESET to the pending cell of `mAsyncPend` raises
the pending promise and leaves the machine entirely unchanged — still
pending, not uninitialized, and the producer cleanup is not invoked. -/
theorem c2_counterexample :
    sendAsync 3 mAsyncPend 0 AUpd.reset = (Except.error (Exc.prom 0), mAsyncPend) ∧
    statusOf mAsyncPend 0 = Status.pending 0 ∧
    Ev.cleanupRun 7 ∉ mAsyncPend.events :=
  ⟨rfl, by decide, by decide⟩

/-- C2 (amended): from the resolved state, sending RESET returns the
cell to uninitialized, marks it dirty, invokes the retained producer
cleanup, and the next `peek()` re-invokes the producer from scratch
(raising a fresh pending promise).  From the pending state, however,
RESET is not available: `send` peeks first, so it raises the pending
suspension and performs no reset at all. -/
theorem c2_reset (f : Nat) (m : Machine) (c : CellId) (cell : Cell)
    (h : getCell m c = some cell) (cln : Option Nat) :
    (∀ k, cell.kind = Kind.async cln Status.resolved →
      cell.unmount = some (UF.cleanup k) →
      ∃ m', sendAsync (f + 2) m c AUpd.reset = (Except.ok (), m') ∧
        statusOf m' c = Status.init ∧ dirtyOf m' c = true ∧
        Ev.cleanupRun k ∈ m'.events ∧
        (∀ f', ∃ m'', peek (f' + 2) m' c = (Except.error (Exc.prom m'.nextProm), m'') ∧
          statusOf m'' c = Status.pending m'.nextProm ∧
          Ev.producerStart c ∈ m''.events)) ∧
    (∀ p, cell.kind = Kind.async cln (Status.pending p) → cell.dirty = true →
      sendAsync (f + 2) m c AUpd.reset = (Except.error (Exc.prom p), m)) := by
  constructor
  · intro k hk hu
    obtain ⟨m₁, hpeek, hg₁, hev₁, hnp₁, hpr₁, hti₁, hlen₁, hother₁⟩ :=
      peek_resolved_spec f m c cell h cln hk
    have hg₂ : getCell (setStatus m₁ c Status.init) c =
        some { cell with dirty := false, kind := Kind.async cln Status.init } := by
      rw [setStatus, getCell_modCell_self, hg₁]
      obtain ⟨ck, cd, cs, csub, cu⟩ := cell
      simp only [] at hk
      subst hk
      rfl
    have hpres := invalidate_pres (f + 2) (setStatus m₁ c Status.init) c
    have hum₃ : unmountOf (invalidate (f + 2) (setStatus m₁ c Status.init) c) c
        = some (UF.cleanup k) := by
      rw [hpres.unmountEq c]
      rw [show unmountOf (setStatus m₁ c Status.init) c = cell.unmount from by
        simp [unmountOf, cellOf, hg₂]]
      exact hu
    have hsend : sendAsync (f + 2) m c AUpd.reset =
        (Except.ok (), pushEv (invalidate (f + 2) (setStatus m₁ c Status.init) c)
          (Ev.cleanupRun k)) := by
      simp only [sendAsync, hpeek, hum₃, runUF]
    set m₄ : Machine :=
      pushEv (invalidate (f + 2) (setStatus m₁ c Status.init) c) (Ev.cleanupRun k)
      with hm₄
    have hkind₄ : kindOf m₄ c = Kind.async cln Status.init := by
      rw [show kindOf m₄ c
          = kindOf (invalidate (f + 2) (setStatus m₁ c Status.init) c) c from rfl,
        hpres.kindEq c]
      simp [kindOf, cellOf, hg₂]
    have hd₄ : dirtyOf m₄ c = true :=
      invalidate_dirty (f + 2) (setStatus m₁ c Status.init) c
    have hlt₄ : c < m₄.cells.length := by
      have h4 : m₄.cells.length = m.cells.length := by
        rw [hm₄, pushEv_length, hpres.lengthEq]
        rw [show (setStatus m₁ c Status.init).cells.length = m₁.cells.length from by
          simp [setStatus]]
        exact hlen₁
      rw [h4]
      exact lt_of_getCell_some h
    have hg₄ : getCell m₄ c = some (cellOf m₄ c) := getCell_cellOf hlt₄
    have hck : (cellOf m₄ c).kind = Kind.async cln Status.init := hkind₄
    have hcd : (cellOf m₄ c).dirty = true := hd₄
    refine ⟨m₄, hsend, ?_, hd₄, ?_, ?_⟩
    · simp [statusOf, hkind₄]
    · simp [hm₄]
    · intro f'
      obtain ⟨m'', hr, hg'', hevP, -, -, -, -, -, -⟩ :=
        readC_init f' m₄ c (cellOf m₄ c) hg₄ cln hck
      exact ⟨m'', peek_dirty_err (f' + 1) m₄ c (cellOf m₄ c) hg₄ hcd _ _ hr,
        statusOf_eq hg'' rfl, hevP⟩
  · intro p hk hd
    have hr := readC_pending f m c cell h cln p hk
    have hp := peek_dirty_err (f + 1) m c cell h hd _ _ hr
    simp only [sendAsync, hp]

/-- The resolved cell of `mAsyncRes`, spelled out. -/
def cellRes : Cell :=
  { kind := Kind.async (some 7) Status.resolved, dirty := true, state := 42,
    subs := [], unmount := some (UF.cleanup 7) }

theorem c2_reset_witness :
    ∃ m', sendAsync 3 mAsyncRes 0 AUpd.reset = (Except.ok (), m') ∧
      statusOf m' 0 = Status.init ∧ dirtyOf m' 0 = true ∧
      Ev.cleanupRun 7 ∈ m'.events ∧
      (∀ f', ∃ m'', peek (f' + 2) m' 0 = (Except.error (Exc.prom m'.nextProm), m'') ∧
        statusOf m'' 0 = Status.pending m'.nextProm ∧
        Ev.producerStart 0 ∈ m''.events) :=
  (c2_reset 1 mAsyncRes 0 cellRes (by decide) (some 7)).1 7 rfl rfl

/-! ### Claim C5: value cells -/

/-- C5: for a value (sync) cell, `send` first peeks, computes the next
value from the updater (literal or function), and when it `Object.is`-
equals the prior state the send is a no-op: no notification happens
(the log is unchanged, every other cell is untouched, only the dirty
flag of the cell itself may have been cleared by the internal peek).
Otherwise the state is updated, and in every case a following `peek()`
returns the value just computed. -/
theorem c5_value_send (f f' : Nat) (m : Machine) (c : CellId) (cell : Cell)
    (h : getCell m c = some cell) (hk : cell.kind = Kind.sync) (up : SUpd) :
    (applySUpd up cell.state = cell.state →
      ∃ m₁, sendSync (f + 2) m c up = (Except.ok (), m₁) ∧
        m₁.events = m.events ∧ getCell m₁ c = some { cell with dirty := false } ∧
        (∀ d, d ≠ c → getCell m₁ d = getCell m d) ∧
        ∃ m₃, peek (f' + 2) m₁ c = (Except.ok cell.state, m₃)) ∧
    (applySUpd up cell.state ≠ cell.state →
      ∃ m₂, sendSync (f + 2) m c up = (Except.ok (), m₂) ∧
        stateOf m₂ c = applySUpd up cell.state ∧
        ∃ m₃, peek (f' + 2) m₂ c = (Except.ok (applySUpd up cell.state), m₃)) := by
  obtain ⟨m₁, hpeek, hg₁, hev₁, hnp₁, hpr₁, hti₁, hlen₁, hntok₁, hoth₁⟩ :=
    peek_sync_spec f m c cell h hk
  have hk₁ : ({ cell with dirty := false } : Cell).kind = Kind.sync := hk
  constructor
  · intro hcond
    refine ⟨m₁, ?_, hev₁, hg₁, hoth₁, ?_⟩
    · simp only [sendSync, hpeek, hcond, if_pos]
    · obtain ⟨m₃, hp₃, -⟩ := peek_sync_spec f' m₁ c _ hg₁ hk₁
      exact ⟨m₃, hp₃⟩
  · intro hcond
    refine ⟨update (f + 2) m₁ c (applySUpd up cell.state), ?_, ?_, ?_⟩
    · simp only [sendSync, hpeek]
      rw [if_neg hcond]
    · have hgU : getCell (modCell m₁ c
          (fun cl => { cl with state := applySUpd up cell.state })) c
          = some { cell with dirty := false, state := applySUpd up cell.state } := by
        rw [getCell_modCell_self, hg₁]
        rfl
      have hpres := update_pres (f + 2) m₁ c (applySUpd up cell.state)
      rw [show stateOf (update (f + 2) m₁ c (applySUpd up cell.state)) c = _ from
        hpres.stateEq c]
      simp [stateOf, cellOf, hgU]
    · have hgU : getCell (modCell m₁ c
          (fun cl => { cl with state := applySUpd up cell.state })) c
          = some { cell with dirty := false, state := applySUpd up cell.state } := by
        rw [getCell_modCell_self, hg₁]
        rfl
      have hpres := update_pres (f + 2) m₁ c (applySUpd up cell.state)
      have hlt₂ : c < (update (f + 2) m₁ c (applySUpd up cell.state)).cells.length := by
        rw [hpres.lengthEq, modCell_length, hlen₁]
        exact lt_of_getCell_some h
      have hg₂ : getCell (update (f + 2) m₁ c (applySUpd up cell.state)) c
          = some (cellOf (update (f + 2) m₁ c (applySUpd up cell.state)) c) :=
        getCell_cellOf hlt₂
      have hk₂ : (cellOf (update (f + 2) m₁ c (applySUpd up cell.state)) c).kind
          = Kind.sync := by
        rw [show (cellOf (update (f + 2) m₁ c (applySUpd up cell.state)) c).kind
            = kindOf (update (f + 2) m₁ c (applySUpd up cell.state)) c from rfl,
          hpres.kindEq c]
        simp [kindOf, cellOf, hgU, hk]
      have hs₂ : (cellOf (update (f + 2) m₁ c (applySUpd up cell.state)) c).state
          = applySUpd up cell.state := by
        rw [show (cellOf (update (f + 2) m₁ c (applySUpd up cell.state)) c).state
            = stateOf (update (f + 2) m₁ c (applySUpd up cell.state)) c from rfl,
          hpres.stateEq c]
        simp [stateOf, cellOf, hgU]
      obtain ⟨m₃, hp₃, -⟩ := peek_sync_spec f' _ c _ hg₂ hk₂
      rw [hs₂] at hp₃
      exact ⟨m₃, hp₃⟩

/-- Concrete instance of C5: on a fresh value cell holding 1, sending 5
then peeking yields 5. -/
theorem c5_value_send_witness :
    ∃ m₂, sendSync 3 { cells := [mkSync 1] } 0 (SUpd.val 5) = (Except.ok (), m₂) ∧
      stateOf m₂ 0 = 5 ∧
      ∃ m₃, peek 3 m₂ 0 = (Except.ok 5, m₃) :=
  (c5_value_send 1 1 { cells := [mkSync 1] } 0 (mkSync 1) rfl rfl (SUpd.val 5)).2
    (by decide)

/-! ### Claim C8: the tolerant peek helper -/

/-- C8: the tolerant peek attempts `peek()` once: a value is returned
as is; a raised suspension is adopted — the helper returns the carried
promise itself (same identity, no second `peek`, no second suspension),
so once that promise settles the helper's result is exactly the settled
value; a non-suspension error is re-raised unchanged.  The last clause
runs the round trip on an uninitialized async cell. -/
theorem c8_tolerant_peek (f : Nat) (m : Machine) (c : CellId) :
    (∀ v m₁, peek (f + 2) m c = (Except.ok v, m₁) →
      peekAtomM (f + 2) m c = (PRes.now v, m₁) ∧
      tolerantVal m₁ (PRes.now v) = some v) ∧
    (∀ p m₁, peek (f + 2) m c = (Except.error (Exc.prom p), m₁) →
      peekAtomM (f + 2) m c = (PRes.awaitP p, m₁)) ∧
    (∀ m₁, peek (f + 2) m c = (Except.error Exc.err, m₁) →
      peekAtomM (f + 2) m c = (PRes.errE, m₁)) ∧
    (∀ cell cln v f', getCell m c = some cell →
      cell.kind = Kind.async cln Status.init → cell.dirty = true →
      m.proms.find? (fun q => q.1 = m.nextProm) = none →
      ∃ m₁, peekAtomM (f + 2) m c = (PRes.awaitP m.nextProm, m₁) ∧
        tolerantVal (settle f' m₁ c v) (PRes.awaitP m.nextProm) = some v ∧
        stateOf (settle f' m₁ c v) c = v) := by
  refine ⟨?_, ?_, ?_, ?_⟩
  · intro v m₁ hp
    exact ⟨by simp only [peekAtomM, hp], rfl⟩
  · intro p m₁ hp
    simp only [peekAtomM, hp]
  · intro m₁ hp
    simp only [peekAtomM, hp]
  · intro cell cln v f' h hk hd hfresh
    obtain ⟨m₁, hr, hg₁, -, -, hpr₁, -, -, -, -⟩ := readC_init f m c cell h cln hk
    have hp := peek_dirty_err (f + 1) m c cell h hd _ _ hr
    refine ⟨m₁, by simp only [peekAtomM, hp], ?_, ?_⟩
    · obtain ⟨-, -, -, -, -, hprom, -⟩ :=
        settle_spec f' m₁ c _ hg₁ cln m.nextProm rfl v (by rw [hpr₁]; exact hfresh)
      exact hprom
    · obtain ⟨-, hstate, -⟩ :=
        settle_spec f' m₁ c _ hg₁ cln m.nextProm rfl v (by rw [hpr₁]; exact hfresh)
      exact hstate

/-- Concrete instance of C8: the fresh async cell suspends on promise 0;
after that promise settles with 42 the tolerant peek's result is 42. -/
theorem c8_tolerant_peek_witness :
    ∃ m₁, peekAtomM 4 mAsyncInit 0 = (PRes.awaitP 0, m₁) ∧
      tolerantVal (settle 2 m₁ 0 42) (PRes.awaitP 0) = some 42 ∧
      stateOf (settle 2 m₁ 0 42) 0 = 42 :=
  (c8_tolerant_peek 2 mAsyncInit 0).2.2.2 (mkAsync (some 7)) (some 7) 42 2
    rfl rfl rfl rfl

/-! ### Claim C9: deferred, coalesced unmount -/

/-- Popping the scheduled unmount check of a cell that has regained
subscribers does nothing but dequeue. -/
theorem runTimeout_busy (m : Machine) (c : CellId) (rest : List CellId)
    (h : m.timeouts = c :: rest) (hne : (subsList m c).isEmpty = false) :
    runTimeout m = { m with timeouts := rest } := by
  simp only [runTimeout, h]
  rw [show subsList ({ m with timeouts := rest } : Machine) c = subsList m c from rfl]
  simp [hne]

/-- Popping the scheduled unmount check of a cell still without
subscribers invokes the retained cleanup. -/
theorem runTimeout_fire (m : Machine) (c : CellId) (rest : List CellId) (u : UF)
    (h : m.timeouts = c :: rest) (he : (subsList m c).isEmpty = true)
    (hu : unmountOf m c = some u) :
    runTimeout m = runUF { m with timeouts := rest } c u := by
  simp only [runTimeout, h]
  rw [show subsList ({ m with timeouts := rest } : Machine) c = subsList m c from rfl]
  rw [show unmountOf ({ m with timeouts := rest } : Machine) c = unmountOf m c from rfl]
  simp [he, hu]

/-- The machine right after the unsubscribe closure removed the last
subscriber of a mounted cell: the subscription is gone and the unmount
check for the cell is queued. -/
def afterUnsub (m : Machine) (c : CellId) (t : Nat) : Machine :=
  { modCell m c (fun cl => { cl with subs := cl.subs.filter (fun s => s.1 ≠ t) })
    with timeouts := [c] }

/-- C9: removing the last subscriber runs no cleanup synchronously — it
only schedules an unmount check on the event loop; when the check runs
with the count still zero the retained cleanup is invoked, but a
resubscription arriving before the check runs makes it a no-op: the
check merely pops the queue and nothing else happens. -/
theorem c9_unmount_coalescing (m : Machine) (c : CellId) (cell : Cell) (k : Nat)
    (h : getCell m c = some cell) (t : Nat) (a : SubAct)
    (hsub : cell.subs = [(t, a)]) (hu : cell.unmount = some (UF.cleanup k))
    (hti : m.timeouts = []) (hk : primKind cell.kind = true) :
    (unsubscribeTok m c t).events = m.events ∧
    (unsubscribeTok m c t).timeouts = [c] ∧
    subsList (unsubscribeTok m c t) c = [] ∧
    (runTimeout (unsubscribeTok m c t)).events = m.events ++ [Ev.cleanupRun k] ∧
    (∀ f a₂,
      runTimeout ((subscribeTo (f + 1) (unsubscribeTok m c t) c a₂).2) =
        { ((subscribeTo (f + 1) (unsubscribeTok m c t) c a₂).2) with timeouts := [] }) := by
  have hgf : getCell (modCell m c
      (fun cl => { cl with subs := cl.subs.filter (fun s => s.1 ≠ t) })) c
      = some { cell with subs := [] } := by
    rw [getCell_modCell_self, h]
    simp [hsub]
  have hcond : ((unmountOf (modCell m c
      (fun cl => { cl with subs := cl.subs.filter (fun s => s.1 ≠ t) })) c).isSome &&
      (subsList (modCell m c
        (fun cl => { cl with subs := cl.subs.filter (fun s => s.1 ≠ t) })) c).isEmpty)
      = true := by
    simp [unmountOf, subsList, cellOf, h, hsub, hu]
  have hunsub : unsubscribeTok m c t = afterUnsub m c t := by
    simp only [unsubscribeTok]
    rw [if_pos hcond]
    simp only [afterUnsub, modCell_timeouts, hti, List.nil_append]
  have hgTQ : getCell (afterUnsub m c t) c = some { cell with subs := [] } := hgf
  have hsubTQ : subsList (afterUnsub m c t) c = [] := by
    simp only [subsList, cellOf, hgTQ, Option.getD_some]
  have humTQ : unmountOf (afterUnsub m c t) c = some (UF.cleanup k) := by
    simp only [unmountOf, cellOf, hgTQ, Option.getD_some]
    exact hu
  have htiTQ : (afterUnsub m c t).timeouts = [c] := rfl
  have hevTQ : (afterUnsub m c t).events = m.events := rfl
  refine ⟨by rw [hunsub, hevTQ], by rw [hunsub, htiTQ], ?_, ?_, ?_⟩
  · rw [hunsub]
    exact hsubTQ
  · rw [hunsub, runTimeout_fire (afterUnsub m c t) c [] (UF.cleanup k) htiTQ
      (by rw [hsubTQ]; rfl) humTQ]
    rfl
  · intro f a₂
    rw [hunsub]
    -- the resubscription: onMount runs (count was zero) and the
    -- subscriber is registered, so the later check finds a nonempty set
    have hOn : (onMountRun f (afterUnsub m c t) c).timeouts = [c] ∧
        ∃ cellOn, getCell (onMountRun f (afterUnsub m c t) c) c = some cellOn ∧
          cellOn.subs = [] := by
      match f with
      | 0 => exact ⟨rfl, { cell with subs := [] }, hgTQ, rfl⟩
      | f + 1 =>
        have hkind : kindOf (afterUnsub m c t) c = cell.kind := by
          simp only [kindOf, cellOf, hgTQ, Option.getD_some]
        cases hck : cell.kind with
        | sync =>
          rw [onMountRun, hkind, hck]
          exact ⟨rfl, { cell with subs := [], unmount := none },
            by rw [setUnmount, getCell_modCell_self, hgTQ]; rfl, rfl⟩
        | async cln st =>
          rw [onMountRun, hkind, hck]
          exact ⟨rfl, { cell with subs := [], unmount := none },
            by rw [setUnmount, getCell_modCell_self, hgTQ]; rfl, rfl⟩
        | derived g dl =>
          rw [hck] at hk
          exact absurd hk (by simp [primKind])
    obtain ⟨htOn, cellOn, hgOn, hsOn⟩ := hOn
    have hie : (subsList (afterUnsub m c t) c).isEmpty = true := by
      rw [hsubTQ]; rfl
    have hstep : subscribeTo (f + 1) (afterUnsub m c t) c a₂ =
        ((onMountRun f (afterUnsub m c t) c).nextTok,
          addSub { onMountRun f (afterUnsub m c t) c with
            nextTok := (onMountRun f (afterUnsub m c t) c).nextTok + 1 } c
            (onMountRun f (afterUnsub m c t) c).nextTok a₂) := by
      simp only [subscribeTo]
      rw [if_pos hie]
    rw [hstep]
    have ht₂ : (addSub { onMountRun f (afterUnsub m c t) c with
        nextTok := (onMountRun f (afterUnsub m c t) c).nextTok + 1 } c
        (onMountRun f (afterUnsub m c t) c).nextTok a₂).timeouts = [c] := by
      rw [addSub, modCell_timeouts]
      exact htOn
    have hsub₂ : subsList (addSub { onMountRun f (afterUnsub m c t) c with
        nextTok := (onMountRun f (afterUnsub m c t) c).nextTok + 1 } c
        (onMountRun f (afterUnsub m c t) c).nextTok a₂) c =
        [((onMountRun f (afterUnsub m c t) c).nextTok, a₂)] := by
      rw [addSub, subsList, cellOf, getCell_modCell_self, getCell_withNextTok, hgOn]
      simp [hsOn]
    exact runTimeout_busy _ c [] ht₂ (by rw [hsub₂]; rfl)

/-- A mounted pending async cell with one spy subscriber, for the
unmount-coalescing witness. -/
def cellC9 : Cell :=
  { kind := Kind.async (some 7) (Status.pending 0), dirty := true, state := 0,
    subs := [(5, SubAct.spy 9)], unmount := some (UF.cleanup 7) }

def mC9 : Machine := { cells := [cellC9] }

theorem c9_unmount_coalescing_witness :
    (unsubscribeTok mC9 0 5).events = mC9.events ∧
    (unsubscribeTok mC9 0 5).timeouts = [0] ∧
    subsList (unsubscribeTok mC9 0 5) 0 = [] ∧
    (runTimeout (unsubscribeTok mC9 0 5)).events = mC9.events ++ [Ev.cleanupRun 7] ∧
    (∀ f a₂,
      runTimeout ((subscribeTo (f + 1) (unsubscribeTok mC9 0 5) 0 a₂).2) =
        { ((subscribeTo (f + 1) (unsubscribeTok mC9 0 5) 0 a₂).2) with timeouts := [] }) :=
  c9_unmount_coalescing mC9 0 cellC9 7 rfl 5 (SubAct.spy 9) rfl rfl rfl rfl

/-! ### Claim C6: invalidation of a derived cell is lazy -/

/-- C6: when a dependency of a derived cell changes — through `update`
or through `invalidate` — the derived cell is marked dirty and its own
subscribers are notified, but nothing recomputes synchronously: its
cached state and its recorded dependency map are untouched.  The next
`read()` then recomputes through the getter and runs the reconcile of
the dependency map from scratch. -/
theorem c6_lazy_invalidation (f : Nat) (m : Machine) (a c : CellId)
    (cellA cellC : Cell) (hA : getCell m a = some cellA)
    (hC : getCell m c = some cellC) (hac : a ≠ c)
    (g : GExp) (dl : List (CellId × Nat)) (hk : cellC.kind = Kind.derived g dl)
    (tA tS s : Nat) (hsubA : (tA, SubAct.inval c) ∈ cellA.subs)
    (hs : (tS, SubAct.spy s) ∈ cellC.subs)
    (hf : cellA.subs.length + cellC.subs.length < f) (v : Val) :
    (dirtyOf (update (f + 1) m a v) c = true ∧
      Ev.spy s ∈ (update (f + 1) m a v).events ∧
      stateOf (update (f + 1) m a v) c = cellC.state ∧
      kindOf (update (f + 1) m a v) c = Kind.derived g dl ∧
      (∀ f₂ v' ds m₁, evalG f₂ (update (f + 1) m a v) [] g = (Except.ok v', ds, m₁) →
        readC (f₂ + 1) (update (f + 1) m a v) c =
          (Except.ok v', addDeps f₂ (pruneDeps c ds m₁ dl) c ds))) ∧
    (dirtyOf (invalidate (f + 1) m a) c = true ∧
      Ev.spy s ∈ (invalidate (f + 1) m a).events ∧
      stateOf (invalidate (f + 1) m a) c = cellC.state ∧
      kindOf (invalidate (f + 1) m a) c = Kind.derived g dl) := by
  have main : ∀ (f' : Nat) (mx : Machine),
      cellA.subs.length + cellC.subs.length < f' →
      getCell mx c = some cellC →
      dirtyOf (notifyL f' mx cellA.subs) c = true ∧
      Ev.spy s ∈ (notifyL f' mx cellA.subs).events ∧
      stateOf (notifyL f' mx cellA.subs) c = cellC.state ∧
      kindOf (notifyL f' mx cellA.subs) c = Kind.derived g dl := by
    intro f' mx hf' hcx
    have hp := notifyL_pres f' mx cellA.subs
    have hsubsx : subsList mx c = cellC.subs := by
      simp [subsList, cellOf, hcx]
    refine ⟨?_, ?_, ?_, ?_⟩
    · exact notifyL_inval cellA.subs f' mx tA c (by omega) hsubA
    · exact notifyL_inval_spy cellA.subs f' mx tA c tS s
        (by rw [hsubsx]; omega) hsubA (by rw [hsubsx]; exact hs)
    · rw [hp.stateEq c]
      simp [stateOf, cellOf, hcx]
    · rw [hp.kindEq c]
      simp [kindOf, cellOf, hcx, hk]
  have hreadC : ∀ (m' : Machine) (cellD : Cell), getCell m' c = some cellD →
      cellD.kind = Kind.derived g dl →
      ∀ f₂ v' ds m₁, evalG f₂ m' [] g = (Except.ok v', ds, m₁) →
        readC (f₂ + 1) m' c =
          (Except.ok v', addDeps f₂ (pruneDeps c ds m₁ dl) c ds) := by
    intro m' cellD hg' hk' f₂ v' ds m₁ heval
    simp only [readC, hg', hk', heval]
  constructor
  · -- the update path
    have hgU : getCell (modCell m a (fun cl => { cl with state := v })) a
        = some { cellA with state := v } := by
      rw [getCell_modCell_self, hA]
      rfl
    have hsU : subsList (modCell m a (fun cl => { cl with state := v })) a
        = cellA.subs := by
      simp [subsList, cellOf, hgU]
    have hcU : getCell (modCell m a (fun cl => { cl with state := v })) c
        = some cellC := by
      rw [getCell_modCell_ne m a c _ (fun hcc => hac hcc.symm)]
      exact hC
    have heq : update (f + 1) m a v =
        notifyL (f + 1) (modCell m a (fun cl => { cl with state := v }))
          (subsList (modCell m a (fun cl => { cl with state := v })) a) := rfl
    rw [heq, hsU]
    obtain ⟨h1, h2, h3, h4⟩ := main (f + 1)
      (modCell m a (fun cl => { cl with state := v })) (by omega) hcU
    refine ⟨h1, h2, h3, h4, ?_⟩
    intro f₂ v' ds m₁ heval
    have hlt : c < (notifyL (f + 1) (modCell m a (fun cl => { cl with state := v }))
        cellA.subs).cells.length := by
      rw [(notifyL_pres (f + 1) _ cellA.subs).lengthEq, modCell_length]
      exact lt_of_getCell_some hC
    have hg' := getCell_cellOf hlt
    exact hreadC _ _ hg' h4 f₂ v' ds m₁ heval
  · -- the invalidate path
    have hgI : getCell (modCell m a (fun cl => { cl with dirty := true })) a
        = some { cellA with dirty := true } := by
      rw [getCell_modCell_self, hA]
      rfl
    have hsI : subsList (modCell m a (fun cl => { cl with dirty := true })) a
        = cellA.subs := by
      simp [subsList, cellOf, hgI]
    have hcI : getCell (modCell m a (fun cl => { cl with dirty := true })) c
        = some cellC := by
      rw [getCell_modCell_ne m a c _ (fun hcc => hac hcc.symm)]
      exact hC
    have heq : invalidate (f + 1) m a =
        notifyL f (modCell m a (fun cl => { cl with dirty := true }))
          (subsList (modCell m a (fun cl => { cl with dirty := true })) a) := rfl
    rw [heq, hsI]
    exact main f (modCell m a (fun cl => { cl with dirty := true })) hf hcI

/-- The three-cell machine of the spec's end-to-end scenario, fully
mounted: two value cells and a derived sum over both, each dependency
subscribed with the derived cell's invalidation callback, and a spy on
the derived cell. -/
def g6 : GExp := GExp.add (GExp.getA 0) (GExp.getA 1)

def cellA6 : Cell :=
  { kind := Kind.sync, dirty := false, state := 1,
    subs := [(0, SubAct.inval 2)], unmount := none }

def cellB6 : Cell :=
  { kind := Kind.sync, dirty := false, state := 10,
    subs := [(1, SubAct.inval 2)], unmount := none }

def cellC6 : Cell :=
  { kind := Kind.derived g6 [(0, 0), (1, 1)], dirty := false, state := 11,
    subs := [(2, SubAct.spy 5)], unmount := none }

def mC6 : Machine := { cells := [cellA6, cellB6, cellC6], nextTok := 3 }

/-! ### A frame invariant for getter evaluation

Evaluating a derived getter only peeks cells.  When every cell it can
read is primitive (sync or async — not itself derived), those peeks
touch nothing but the peeked cell's own caching fields: no subscriber
list changes anywhere, no derived cell changes at all, and the token
counter, timeout queue and promise table are untouched. -/

/-- What a flat getter evaluation preserves. -/
def EvalFrame (m m' : Machine) : Prop :=
  (∀ e, primKind (kindOf m e) = false → getCell m' e = getCell m e) ∧
  (∀ e, subsList m' e = subsList m e) ∧
  m'.timeouts = m.timeouts ∧
  m'.nextTok = m.nextTok ∧
  m'.proms = m.proms ∧
  m'.cells.length = m.cells.length ∧
  (∀ e, primKind (kindOf m' e) = primKind (kindOf m e))

theorem EvalFrame.refl_frame (m : Machine) : EvalFrame m m :=
  ⟨fun _ _ => rfl, fun _ => rfl, rfl, rfl, rfl, rfl, fun _ => rfl⟩

theorem EvalFrame.trans_frame {m₁ m₂ m₃ : Machine}
    (h₁ : EvalFrame m₁ m₂) (h₂ : EvalFrame m₂ m₃) : EvalFrame m₁ m₃ := by
  obtain ⟨g1, s1, t1, n1, p1, l1, k1⟩ := h₁
  obtain ⟨g2, s2, t2, n2, p2, l2, k2⟩ := h₂
  refine ⟨?_, fun e => (s2 e).trans (s1 e), t2.trans t1, n2.trans n1,
    p2.trans p1, l2.trans l1, fun e => (k2 e).trans (k1 e)⟩
  intro e he
  exact ((g2 e (by rw [k1 e]; exact he)).trans (g1 e he))

theorem EvalFrame.pushEvF (m : Machine) (e : Ev) : EvalFrame m (pushEv m e) :=
  ⟨fun _ _ => rfl, fun _ => rfl, rfl, rfl, rfl, rfl, fun _ => rfl⟩

theorem EvalFrame.withNextProm (m : Machine) (x : Nat) :
    EvalFrame m { m with nextProm := x } :=
  ⟨fun _ _ => rfl, fun _ => rfl, rfl, rfl, rfl, rfl, fun _ => rfl⟩

/-- Modifying one primitive cell's caching fields is a frame step, as
long as the modification keeps the subscriber list and the kind
class. -/
theorem modCell_prim_frame (m : Machine) (d : CellId)
    (hprim : primKind (kindOf m d) = true) (fn : Cell → Cell)
    (hfs : ∀ cl, (fn cl).subs = cl.subs)
    (hfk : ∀ cl, getCell m d = some cl → primKind (fn cl).kind = primKind cl.kind) :
    EvalFrame m (modCell m d fn) := by
  have hne : ∀ e, primKind (kindOf m e) = false → e ≠ d := by
    intro e he heq
    rw [heq, hprim] at he
    exact Bool.noConfusion he
  refine ⟨?_, ?_, rfl, rfl, rfl, by simp, ?_⟩
  · intro e he
    exact getCell_modCell_ne m d e fn (hne e he)
  · intro e
    by_cases hed : e = d
    · subst hed
      simp only [subsList, cellOf, getCell_modCell_self]
      cases hg : getCell m e <;> simp [hfs]
    · simp [subsList, cellOf, getCell_modCell_ne m d e fn hed]
  · intro e
    by_cases hed : e = d
    · subst hed
      simp only [kindOf, cellOf, getCell_modCell_self]
      cases hg : getCell m e with
      | none => simp
      | some cl => simp [hfk cl hg]
    · simp [kindOf, cellOf, getCell_modCell_ne m d e fn hed]

/-- Reading a primitive cell is a frame step. -/
theorem readC_prim_frame (f : Nat) (m : Machine) (d : CellId)
    (hprim : primKind (kindOf m d) = true) : EvalFrame m (readC f m d).2 := by
  match f with
  | 0 => exact EvalFrame.refl_frame m
  | f + 1 =>
    cases hg : getCell m d with
    | none =>
      rw [show (readC (f + 1) m d).2 = m from by simp [readC, hg]]
      exact EvalFrame.refl_frame m
    | some cell =>
      have hkd : kindOf m d = cell.kind := by simp [kindOf, cellOf, hg]
      cases hck : cell.kind with
      | sync =>
        rw [show (readC (f + 1) m d).2 = m from by simp [readC, hg, hck]]
        exact EvalFrame.refl_frame m
      | derived g dl =>
        rw [hkd, hck] at hprim
        exact absurd hprim (by simp [primKind])
      | async cln st =>
        cases st with
        | init =>
          rw [show (readC (f + 1) m d).2 =
              pushEv (modCell { m with nextProm := m.nextProm + 1 } d (fun cl =>
                { cl with kind := Kind.async cln (Status.pending m.nextProm),
                          unmount := cln.map UF.cleanup })) (Ev.producerStart d)
              from by simp [readC, hg, hck]]
          refine ((EvalFrame.withNextProm m (m.nextProm + 1)).trans_frame
            (modCell_prim_frame _ d ?_
              (fun cl => { cl with kind := Kind.async cln (Status.pending m.nextProm),
                                   unmount := cln.map UF.cleanup })
              (fun cl => rfl) (fun cl hcl => ?_))).trans_frame
            (EvalFrame.pushEvF _ _)
          · rw [show kindOf ({ m with nextProm := m.nextProm + 1 } : Machine) d
              = kindOf m d from rfl, hkd, hck]
            simp [primKind]
          · rw [show getCell ({ m with nextProm := m.nextProm + 1 } : Machine) d
              = getCell m d from rfl, hg] at hcl
            injection hcl with hcl
            subst hcl
            simp [primKind, hck]
        | pending p =>
          rw [show (readC (f + 1) m d).2 = m from by simp [readC, hg, hck]]
          exact EvalFrame.refl_frame m
        | resolved =>
          rw [show (readC (f + 1) m d).2 = m from by simp [readC, hg, hck]]
          exact EvalFrame.refl_frame m

/-- Peeking a primitive cell is a frame step. -/
theorem peek_prim_frame (f : Nat) (m : Machine) (d : CellId)
    (hprim : primKind (kindOf m d) = true) : EvalFrame m (peek f m d).2 := by
  match f with
  | 0 => exact EvalFrame.refl_frame m
  | f + 1 =>
    cases hg : getCell m d with
    | none =>
      rw [show (peek (f + 1) m d).2 = m from by simp [peek, hg]]
      exact EvalFrame.refl_frame m
    | some cell =>
      cases hd : cell.dirty with
      | false =>
        rw [show (peek (f + 1) m d).2 = m from by simp [peek, hg, hd]]
        exact EvalFrame.refl_frame m
      | true =>
        have hrd := readC_prim_frame f m d hprim
        rcases hr : readC f m d with ⟨r, m₁⟩
        rw [hr] at hrd
        cases r with
        | error e =>
          rw [show (peek (f + 1) m d).2 = m₁ from by simp [peek, hg, hd, hr]]
          exact hrd
        | ok v =>
          rw [show (peek (f + 1) m d).2 =
              modCell m₁ d (fun cl => { cl with state := v, dirty := false })
              from by simp [peek, hg, hd, hr]]
          refine hrd.trans_frame
            (modCell_prim_frame m₁ d ?_ _ (fun cl => rfl) (fun cl _ => rfl))
          rw [hrd.2.2.2.2.2.2 d]
          exact hprim

/-- The cells the tracked get accumulates are either inherited from the
accumulator or syntactic reads of the getter. -/
theorem evalG_ds_sub (g : GExp) :
    ∀ (f : Nat) (m : Machine) (acc : List CellId) r ds' m',
      evalG f m acc g = (r, ds', m') →
      ∀ d, d ∈ ds' → d ∈ acc ∨ d ∈ gReads g := by
  induction g with
  | const v =>
    intro f m acc r ds' m' he d hd
    match f with
    | 0 => simp only [evalG] at he; injection he with h1 h2; injection h2 with h2 h3; subst h2; exact Or.inl hd
    | f + 1 => simp only [evalG] at he; injection he with h1 h2; injection h2 with h2 h3; subst h2; exact Or.inl hd
  | fail =>
    intro f m acc r ds' m' he d hd
    match f with
    | 0 => simp only [evalG] at he; injection he with h1 h2; injection h2 with h2 h3; subst h2; exact Or.inl hd
    | f + 1 => simp only [evalG] at he; injection he with h1 h2; injection h2 with h2 h3; subst h2; exact Or.inl hd
  | getA c =>
    intro f m acc r ds' m' he d hd
    match f with
    | 0 =>
      simp only [evalG] at he; injection he with h1 h2; injection h2 with h2 h3; subst h2
      exact Or.inl hd
    | f + 1 =>
      simp only [evalG] at he
      rcases hp : peek f m c with ⟨rp, mp⟩
      rw [hp] at he
      have hds : ds' = if acc.contains c then acc else acc ++ [c] := by
        cases rp <;> simp_all
      by_cases hcc : acc.contains c
      · rw [hds, if_pos hcc] at hd
        exact Or.inl hd
      · rw [hds, if_neg hcc] at hd
        rcases List.mem_append.1 hd with h | h
        · exact Or.inl h
        · simp at h
          subst h
          exact Or.inr (by simp [gReads])
  | add a b iha ihb =>
    intro f m acc r ds' m' he d hd
    match f with
    | 0 =>
      simp only [evalG] at he; injection he with h1 h2; injection h2 with h2 h3; subst h2
      exact Or.inl hd
    | f + 1 =>
      simp only [evalG] at he
      rcases hA : evalG f m acc a with ⟨ra, ds₁, m₁⟩
      rw [hA] at he
      cases ra with
      | error ea =>
        simp only [] at he
        injection he with h1 h2; injection h2 with h2 h3; subst h2
        rcases iha f m acc _ _ _ hA d hd with h | h
        · exact Or.inl h
        · exact Or.inr (by simp [gReads, h])
      | ok va =>
        simp only [] at he
        rcases hB : evalG f m₁ ds₁ b with ⟨rb, ds₂, m₂⟩
        rw [hB] at he
        have hds : ds' = ds₂ := by cases rb <;> simp_all
        subst hds
        rcases ihb f m₁ ds₁ _ _ _ hB d hd with h | h
        · rcases iha f m acc _ _ _ hA d h with h' | h'
          · exact Or.inl h'
          · exact Or.inr (by simp [gReads, h'])
        · exact Or.inr (by simp [gReads, h])
  | iteZ cnd tbr ebr ihc iht ihe =>
    intro f m acc r ds' m' he d hd
    match f with
    | 0 =>
      simp only [evalG] at he; injection he with h1 h2; injection h2 with h2 h3; subst h2
      exact Or.inl hd
    | f + 1 =>
      simp only [evalG] at he
      rcases hC : evalG f m acc cnd with ⟨rc, ds₁, m₁⟩
      rw [hC] at he
      cases rc with
      | error ec =>
        simp only [] at he
        injection he with h1 h2; injection h2 with h2 h3; subst h2
        rcases ihc f m acc _ _ _ hC d hd with h | h
        · exact Or.inl h
        · exact Or.inr (by simp [gReads, h])
      | ok vc =>
        simp only [] at he
        by_cases hz : vc ≠ 0
        · rw [if_pos hz] at he
          rcases iht f m₁ ds₁ _ _ _ he d hd with h | h
          · rcases ihc f m acc _ _ _ hC d h with h' | h'
            · exact Or.inl h'
            · exact Or.inr (by simp [gReads, h'])
          · exact Or.inr (by simp [gReads, h])
        · rw [if_neg hz] at he
          rcases ihe f m₁ ds₁ _ _ _ he d hd with h | h
          · rcases ihc f m acc _ _ _ hC d h with h' | h'
            · exact Or.inl h'
            · exact Or.inr (by simp [gReads, h'])
          · exact Or.inr (by simp [gReads, h])

/-- Flat getter evaluation is a frame step. -/
theorem evalG_flat_frame (g : GExp) :
    ∀ (f : Nat) (m : Machine) (acc : List CellId) r ds' m',
      (∀ d ∈ gReads g, primKind (kindOf m d) = true) →
      evalG f m acc g = (r, ds', m') → EvalFrame m m' := by
  induction g with
  | const v =>
    intro f m acc r ds' m' hflat he
    match f with
    | 0 => simp only [evalG] at he; injection he with h1 h2; injection h2 with h2 h3; subst h3; exact EvalFrame.refl_frame m
    | f + 1 => simp only [evalG] at he; injection he with h1 h2; injection h2 with h2 h3; subst h3; exact EvalFrame.refl_frame m
  | fail =>
    intro f m acc r ds' m' hflat he
    match f with
    | 0 => simp only [evalG] at he; injection he with h1 h2; injection h2 with h2 h3; subst h3; exact EvalFrame.refl_frame m
    | f + 1 => simp only [evalG] at he; injection he with h1 h2; injection h2 with h2 h3; subst h3; exact EvalFrame.refl_frame m
  | getA c =>
    intro f m acc r ds' m' hflat he
    match f with
    | 0 =>
      simp only [evalG] at he; injection he with h1 h2; injection h2 with h2 h3; subst h3
      exact EvalFrame.refl_frame m
    | f + 1 =>
      simp only [evalG] at he
      have hfr := peek_prim_frame f m c (hflat c (by simp [gReads]))
      rcases hp : peek f m c with ⟨rp, mp⟩
      rw [hp] at he hfr
      have : m' = mp := by cases rp <;> simp_all
      subst this
      exact hfr
  | add a b iha ihb =>
    intro f m acc r ds' m' hflat he
    match f with
    | 0 =>
      simp only [evalG] at he; injection he with h1 h2; injection h2 with h2 h3; subst h3
      exact EvalFrame.refl_frame m
    | f + 1 =>
      simp only [evalG] at he
      rcases hA : evalG f m acc a with ⟨ra, ds₁, m₁⟩
      rw [hA] at he
      have hfa := iha f m acc _ _ _ (fun d hd => hflat d (by simp [gReads, hd])) hA
      cases ra with
      | error ea =>
        simp only [] at he
        injection he with h1 h2; injection h2 with h2 h3; subst h3
        exact hfa
      | ok va =>
        simp only [] at he
        rcases hB : evalG f m₁ ds₁ b with ⟨rb, ds₂, m₂⟩
        rw [hB] at he
        have hfb := ihb f m₁ ds₁ _ _ _
          (fun d hd => by rw [hfa.2.2.2.2.2.2 d]; exact hflat d (by simp [gReads, hd])) hB
        have : m' = m₂ := by cases rb <;> simp_all
        subst this
        exact hfa.trans_frame hfb
  | iteZ cnd tbr ebr ihc iht ihe =>
    intro f m acc r ds' m' hflat he
    match f with
    | 0 =>
      simp only [evalG] at he; injection he with h1 h2; injection h2 with h2 h3; subst h3
      exact EvalFrame.refl_frame m
    | f + 1 =>
      simp only [evalG] at he
      rcases hC : evalG f m acc cnd with ⟨rc, ds₁, m₁⟩
      rw [hC] at he
      have hfc := ihc f m acc _ _ _ (fun d hd => hflat d (by simp [gReads, hd])) hC
      cases rc with
      | error ec =>
        simp only [] at he
        injection he with h1 h2; injection h2 with h2 h3; subst h3
        exact hfc
      | ok vc =>
        simp only [] at he
        by_cases hz : vc ≠ 0
        · rw [if_pos hz] at he
          exact hfc.trans_frame (iht f m₁ ds₁ _ _ _
            (fun d hd => by rw [hfc.2.2.2.2.2.2 d]; exact hflat d (by simp [gReads, hd])) he)
        · rw [if_neg hz] at he
          exact hfc.trans_frame (ihe f m₁ ds₁ _ _ _
            (fun d hd => by rw [hfc.2.2.2.2.2.2 d]; exact hflat d (by simp [gReads, hd])) he)

/-! ### The reconcile of DerivedAtom.read -/

theorem getCell_congr {m m' : Machine} (h : m'.cells = m.cells) :
    ∀ e, getCell m' e = getCell m e := by
  intro e
  rw [getCell, getCell, h]

/-- The unsubscribe closure only filters one subscriber list (and may
queue a timeout). -/
theorem unsubscribeTok_cells (m : Machine) (d : CellId) (t : Nat) :
    (unsubscribeTok m d t).cells = (modCell m d (fun cl =>
      { cl with subs := cl.subs.filter (fun s => s.1 ≠ t) })).cells ∧
    (unsubscribeTok m d t).nextTok = m.nextTok ∧
    (unsubscribeTok m d t).proms = m.proms := by
  refine ⟨?_, ?_, ?_⟩ <;>
    (simp only [unsubscribeTok]
     split <;> rfl)

theorem unsubscribeTok_getCell_ne (m : Machine) (d : CellId) (t : Nat)
    (e : CellId) (he : e ≠ d) : getCell (unsubscribeTok m d t) e = getCell m e := by
  rw [getCell, (unsubscribeTok_cells m d t).1]
  exact getCell_modCell_ne m d e _ he

theorem unsubscribeTok_getCell_self (m : Machine) (d : CellId) (t : Nat) :
    getCell (unsubscribeTok m d t) d = (getCell m d).map (fun cl =>
      { cl with subs := cl.subs.filter (fun s => s.1 ≠ t) }) := by
  rw [getCell, (unsubscribeTok_cells m d t).1]
  exact getCell_modCell_self m d _

theorem unsubscribeTok_length (m : Machine) (d : CellId) (t : Nat) :
    (unsubscribeTok m d t).cells.length = m.cells.length := by
  rw [(unsubscribeTok_cells m d t).1]
  simp

/-- A token just filtered out is gone from the subscriber list. -/
theorem not_mem_filterTok (l : List (Nat × SubAct)) (t : Nat) (a : SubAct) :
    (t, a) ∉ l.filter (fun s => s.1 ≠ t) := by
  intro hmem
  have := List.of_mem_filter hmem
  simp at this

theorem removeDepKey_getCell_ne (m : Machine) (c : CellId) (d : CellId)
    (e : CellId) (he : e ≠ c) : getCell (removeDepKey m c d) e = getCell m e :=
  getCell_modCell_ne m c e _ he

/-- The registration step shared by every branch of `subscribeTo`. -/
def subStep (m₁ : Machine) (d : CellId) (act : SubAct) : Machine :=
  addSub { m₁ with nextTok := m₁.nextTok + 1 } d m₁.nextTok act

theorem subStep_facts (m₁ : Machine) (d : CellId) (act : SubAct) (cl₁ : Cell)
    (hg₁ : getCell m₁ d = some cl₁) :
    getCell (subStep m₁ d act) d
      = some { cl₁ with subs := cl₁.subs ++ [(m₁.nextTok, act)] } ∧
    (∀ e, e ≠ d → getCell (subStep m₁ d act) e = getCell m₁ e) ∧
    (subStep m₁ d act).nextTok = m₁.nextTok + 1 ∧
    (subStep m₁ d act).timeouts = m₁.timeouts ∧
    (subStep m₁ d act).proms = m₁.proms ∧
    (subStep m₁ d act).cells.length = m₁.cells.length := by
  refine ⟨?_, ?_, rfl, rfl, rfl, by simp [subStep, addSub]⟩
  · rw [subStep, addSub, getCell_modCell_self, getCell_withNextTok, hg₁]
    rfl
  · intro e he
    rw [subStep, addSub, getCell_modCell_ne _ _ _ _ he, getCell_withNextTok]

/-- `RAtom.subscribe` on a primitive (sync or async) cell: the subtype
onMount is trivial, so the call just allocates a token, possibly clears
the unmount field, and registers the subscriber — nothing else in the
machine changes. -/
theorem subscribeTo_prim_spec (f : Nat) (m : Machine) (d : CellId) (act : SubAct)
    (cl : Cell) (hg : getCell m d = some cl) (hprim : primKind cl.kind = true) :
    ∃ m', subscribeTo f m d act = (m.nextTok, m') ∧
      m'.nextTok = m.nextTok + 1 ∧
      m'.timeouts = m.timeouts ∧ m'.proms = m.proms ∧
      m'.cells.length = m.cells.length ∧
      (∀ e, e ≠ d → getCell m' e = getCell m e) ∧
      subsList m' d = cl.subs ++ [(m.nextTok, act)] ∧
      kindOf m' d = cl.kind := by
  have base : ∀ (mb : Machine) (clb : Cell), getCell mb d = some clb →
      clb.subs = cl.subs → clb.kind = cl.kind → mb.nextTok = m.nextTok →
      mb.timeouts = m.timeouts → mb.proms = m.proms →
      mb.cells.length = m.cells.length →
      (∀ e, e ≠ d → getCell mb e = getCell m e) →
      ∃ m', (mb.nextTok, subStep mb d act) = (m.nextTok, m') ∧
        m'.nextTok = m.nextTok + 1 ∧
        m'.timeouts = m.timeouts ∧ m'.proms = m.proms ∧
        m'.cells.length = m.cells.length ∧
        (∀ e, e ≠ d → getCell m' e = getCell m e) ∧
        subsList m' d = cl.subs ++ [(m.nextTok, act)] ∧
        kindOf m' d = cl.kind := by
    intro mb clb hgb hsb hkb hnb htb hpb hlb hob
    obtain ⟨f1, f2, f3, f4, f5, f6⟩ := subStep_facts mb d act clb hgb
    refine ⟨subStep mb d act, by rw [hnb], by rw [f3, hnb], by rw [f4, htb],
      by rw [f5, hpb], by rw [f6, hlb], ?_, ?_, ?_⟩
    · intro e he
      rw [f2 e he]
      exact hob e he
    · simp [subsList, cellOf, f1, hsb, hnb]
    · simp [kindOf, cellOf, f1, hkb]
  match f with
  | 0 =>
    obtain ⟨m', he, hrest⟩ := base m cl hg rfl rfl rfl rfl rfl rfl (fun _ _ => rfl)
    exact ⟨m', by rw [subscribeTo]; exact he, hrest⟩
  | f + 1 =>
    cases hse : (subsList m d).isEmpty with
    | false =>
      obtain ⟨m', he, hrest⟩ := base m cl hg rfl rfl rfl rfl rfl rfl (fun _ _ => rfl)
      refine ⟨m', ?_, hrest⟩
      rw [subscribeTo, if_neg (by rw [hse]; exact Bool.false_ne_true)]
      exact he
    | true =>
      have hmOn : onMountRun f m d = m ∨
          onMountRun f m d = setUnmount m d none := by
        match f with
        | 0 => exact Or.inl rfl
        | f + 1 =>
          have hkd : kindOf m d = cl.kind := by simp [kindOf, cellOf, hg]
          rw [onMountRun, hkd]
          cases hck : cl.kind with
          | sync => exact Or.inr rfl
          | async cln st => exact Or.inr rfl
          | derived gg dl =>
            rw [hck] at hprim
            exact absurd hprim (by simp [primKind])
      have hsubeq : ∀ m₁, onMountRun f m d = m₁ →
          ∃ m', subscribeTo (f + 1) m d act = (m.nextTok, m') ∧
            m'.nextTok = m.nextTok + 1 ∧
            m'.timeouts = m.timeouts ∧ m'.proms = m.proms ∧
            m'.cells.length = m.cells.length ∧
            (∀ e, e ≠ d → getCell m' e = getCell m e) ∧
            subsList m' d = cl.subs ++ [(m.nextTok, act)] ∧
            kindOf m' d = cl.kind := by
        intro m₁ hm₁
        have hstep : subscribeTo (f + 1) m d act = (m₁.nextTok, subStep m₁ d act) := by
          rw [subscribeTo, if_pos (by rw [hse])]
          rw [hm₁]
          rfl
        rcases hmOn with hid | hset
        · rw [hid] at hm₁
          subst hm₁
          obtain ⟨m', he, hrest⟩ := base m cl hg rfl rfl rfl rfl rfl rfl (fun _ _ => rfl)
          exact ⟨m', by rw [hstep]; exact he, hrest⟩
        · rw [hset] at hm₁
          subst hm₁
          have hgset : getCell (setUnmount m d none) d = some { cl with unmount := none } := by
            rw [setUnmount, getCell_modCell_self, hg]
            rfl
          obtain ⟨m', he, hrest⟩ := base (setUnmount m d none) { cl with unmount := none }
            hgset rfl rfl rfl rfl rfl (by simp [setUnmount])
            (fun e he => getCell_modCell_ne m d e _ he)
          exact ⟨m', by rw [hstep]; exact he, hrest⟩
      exact hsubeq (onMountRun f m d) rfl

theorem subsList_removeDepKey (m : Machine) (c d e : CellId) :
    subsList (removeDepKey m c d) e = subsList m e := by
  by_cases hec : e = c
  · subst hec
    simp only [removeDepKey, subsList, cellOf, getCell_modCell_self]
    cases hg : getCell m e with
    | none => simp
    | some cl => cases hk : cl.kind <;> simp [hk]
  · simp [removeDepKey, subsList, cellOf, getCell_modCell_ne m c e _ hec]

theorem kindOf_unsubscribeTok (m : Machine) (d : CellId) (t : Nat) (e : CellId) :
    kindOf (unsubscribeTok m d t) e = kindOf m e := by
  by_cases hed : e = d
  · subst hed
    simp only [kindOf, cellOf, unsubscribeTok_getCell_self]
    cases hg : getCell m e <;> simp
  · simp [kindOf, cellOf, unsubscribeTok_getCell_ne m d t e hed]

theorem subsList_unsubscribeTok_ne (m : Machine) (d : CellId) (t : Nat)
    (e : CellId) (he : e ≠ d) :
    subsList (unsubscribeTok m d t) e = subsList m e := by
  simp [subsList, cellOf, unsubscribeTok_getCell_ne m d t e he]

theorem subsList_unsubscribeTok_self (m : Machine) (d : CellId) (t : Nat) :
    subsList (unsubscribeTok m d t) d
      = (subsList m d).filter (fun s => s.1 ≠ t) := by
  simp only [subsList, cellOf, unsubscribeTok_getCell_self]
  cases hg : getCell m d with
  | none => rfl
  | some cl => rfl

/-- The first reconcile loop, specified.  `kept` is the prefix of the
live dependency map already processed and retained. -/
theorem prune_go (c : CellId) (ds : List CellId) :
    ∀ (l kept : List (CellId × Nat)) (M : Machine) (clc : Cell) (g' : GExp),
    getCell M c = some clc → clc.kind = Kind.derived g' (kept ++ l) →
    ((kept ++ l).map Prod.fst).Nodup →
    (∀ q ∈ kept, ds.contains q.1 = true) →
    ∃ clc', getCell (pruneDeps c ds M l) c = some clc' ∧
      clc'.kind = Kind.derived g' (kept ++ l.filter (fun q => ds.contains q.1)) ∧
      (∀ q ∈ l, ds.contains q.1 = false →
        ∀ a', (q.2, a') ∉ subsList (pruneDeps c ds M l) q.1) ∧
      (∀ d x, x ∈ subsList (pruneDeps c ds M l) d → x ∈ subsList M d) ∧
      (∀ d, ds.contains d = true → subsList (pruneDeps c ds M l) d = subsList M d) ∧
      (∀ e, e ≠ c → kindOf (pruneDeps c ds M l) e = kindOf M e) ∧
      (pruneDeps c ds M l).cells.length = M.cells.length ∧
      (pruneDeps c ds M l).nextTok = M.nextTok ∧
      (pruneDeps c ds M l).proms = M.proms := by
  intro l
  induction l with
  | nil =>
    intro kept M clc g' hg hk hnd hkc
    rw [show pruneDeps c ds M [] = M from rfl]
    exact ⟨clc, hg, by simpa using hk, by simp, fun d x hx => hx, fun d _ => rfl,
      fun e _ => rfl, rfl, rfl, rfl⟩
  | cons q rest ih =>
    obtain ⟨d, t⟩ := q
    intro kept M clc g' hg hk hnd hkc
    cases hc : ds.contains d with
    | true =>
      have hstep : pruneDeps c ds M ((d, t) :: rest) = pruneDeps c ds M rest := by
        rw [pruneDeps, if_pos hc]
      rw [hstep]
      have hk' : clc.kind = Kind.derived g' ((kept ++ [(d, t)]) ++ rest) := by
        rw [hk, List.append_cons]
      have hnd' : (((kept ++ [(d, t)]) ++ rest).map Prod.fst).Nodup := by
        rw [← List.append_cons]
        exact hnd
      have hkc' : ∀ q' ∈ kept ++ [(d, t)], ds.contains q'.1 = true := by
        intro q' hq'
        rcases List.mem_append.1 hq' with h | h
        · exact hkc q' h
        · simp at h
          subst h
          exact hc
      obtain ⟨clc', h1, h2, h3, h4, h5, h6, h7, h8, h9⟩ :=
        ih (kept ++ [(d, t)]) M clc g' hg hk' hnd' hkc'
      refine ⟨clc', h1, ?_, ?_, h4, h5, h6, h7, h8, h9⟩
      · rw [h2]
        have hdm : d ∈ ds := by simpa using hc
        have hfc : List.filter (fun q => ds.contains q.1) ((d, t) :: rest)
            = (d, t) :: List.filter (fun q => ds.contains q.1) rest := by
          simp [List.filter_cons, hdm]
        rw [hfc]
        simp [List.append_assoc]
      · intro q' hq' hq'c a'
        rcases List.mem_cons.1 hq' with h | h
        · subst h
          rw [hq'c] at hc
          exact absurd hc (by simp)
        · exact h3 q' h hq'c a'
    | false =>
      have hstep : pruneDeps c ds M ((d, t) :: rest)
          = pruneDeps c ds (removeDepKey (unsubscribeTok M d t) c d) rest := by
        rw [pruneDeps, if_neg (by rw [hc]; exact Bool.false_ne_true)]
      have hdk : d ∉ kept.map Prod.fst := by
        intro hmem
        rcases List.mem_map.1 hmem with ⟨q', hq', hq'd⟩
        have := hkc q' hq'
        rw [hq'd] at this
        rw [this] at hc
        exact Bool.noConfusion hc
      have hdr : d ∉ rest.map Prod.fst := by
        have hnd2 := hnd
        rw [List.map_append] at hnd2
        have := (List.nodup_append.1 hnd2).2.1
        simp only [List.map_cons] at this
        exact (List.nodup_cons.1 this).1
      -- the cell of c after the unsubscribe (whose target may be c itself)
      have hstep1 : ∃ clc₁, getCell (unsubscribeTok M d t) c = some clc₁ ∧
          clc₁.kind = clc.kind := by
        by_cases hcd : c = d
        · subst hcd
          rw [unsubscribeTok_getCell_self, hg]
          exact ⟨_, rfl, rfl⟩
        · rw [unsubscribeTok_getCell_ne M d t c hcd, hg]
          exact ⟨clc, rfl, rfl⟩
      obtain ⟨clc₁, hg₁, hk₁⟩ := hstep1
      have hfilter : (kept ++ (d, t) :: rest).filter (fun q' => q'.1 ≠ d)
          = kept ++ rest := by
        rw [List.filter_append]
        rw [List.filter_cons_of_neg (by simp)]
        congr 1
        · apply List.filter_eq_self.2
          intro q' hq'
          simp only [decide_eq_true_eq]
          intro hqd
          exact hdk (List.mem_map.2 ⟨q', hq', hqd⟩)
        · apply List.filter_eq_self.2
          intro q' hq'
          simp only [decide_eq_true_eq]
          intro hqd
          exact hdr (List.mem_map.2 ⟨q', hq', hqd⟩)
      have hg₂ : getCell (removeDepKey (unsubscribeTok M d t) c d) c
          = some { clc₁ with kind := Kind.derived g' (kept ++ rest) } := by
        have hck : clc₁.kind = Kind.derived g' (kept ++ (d, t) :: rest) := hk₁.trans hk
        rw [removeDepKey, getCell_modCell_self, hg₁]
        simp only [Option.map, hck]
        rw [hfilter]
      have hnd₂ : ((kept ++ rest).map Prod.fst).Nodup := by
        have hsl : List.Sublist ((kept ++ rest).map Prod.fst)
            ((kept ++ (d, t) :: rest).map Prod.fst) := by
          apply List.Sublist.map
          exact List.Sublist.append_left ((List.Sublist.refl rest).cons _) kept
        exact List.Nodup.sublist hsl hnd
      obtain ⟨clc', h1, h2, h3, h4, h5, h6, h7, h8, h9⟩ :=
        ih kept (removeDepKey (unsubscribeTok M d t) c d)
          { clc₁ with kind := Kind.derived g' (kept ++ rest) } g' hg₂ rfl hnd₂ hkc
      rw [hstep]
      have hsubstep : ∀ e x, x ∈ subsList (removeDepKey (unsubscribeTok M d t) c d) e →
          x ∈ subsList M e := by
        intro e x hx
        rw [subsList_removeDepKey] at hx
        by_cases hed : e = d
        · subst hed
          rw [subsList_unsubscribeTok_self] at hx
          exact List.mem_of_mem_filter hx
        · rw [subsList_unsubscribeTok_ne M d t e hed] at hx
          exact hx
      have hsubeq : ∀ e, e ≠ d →
          subsList (removeDepKey (unsubscribeTok M d t) c d) e = subsList M e := by
        intro e hed
        rw [subsList_removeDepKey, subsList_unsubscribeTok_ne M d t e hed]
      refine ⟨clc', h1, ?_, ?_, ?_, ?_, ?_, ?_, ?_, ?_⟩
      · rw [h2]
        have hdm : d ∉ ds := by simpa using hc
        simp [List.filter_cons, hdm]
      · intro q' hq' hq'c a'
        rcases List.mem_cons.1 hq' with h | h
        · subst h
          intro hmem
          have := h4 _ _ hmem
          rw [subsList_removeDepKey, subsList_unsubscribeTok_self] at this
          exact not_mem_filterTok _ _ _ this
        · exact h3 q' h hq'c a'
      · intro e x hx
        exact hsubstep e x (h4 e x hx)
      · intro e hce
        rw [h5 e hce]
        apply hsubeq
        intro hed
        rw [hed] at hce
        rw [hce] at hc
        exact Bool.noConfusion hc
      · intro e hec
        rw [h6 e hec]
        rw [show kindOf (removeDepKey (unsubscribeTok M d t) c d) e
            = kindOf (unsubscribeTok M d t) e from by
          simp [kindOf, cellOf, removeDepKey_getCell_ne _ _ _ _ hec]]
        exact kindOf_unsubscribeTok M d t e
      · rw [h7]
        rw [show (removeDepKey (unsubscribeTok M d t) c d).cells.length
            = (unsubscribeTok M d t).cells.length from by simp [removeDepKey]]
        exact unsubscribeTok_length M d t
      · rw [h8]
        rw [show (removeDepKey (unsubscribeTok M d t) c d).nextTok
            = (unsubscribeTok M d t).nextTok from rfl]
        exact (unsubscribeTok_cells M d t).2.1
      · rw [h9]
        rw [show (removeDepKey (unsubscribeTok M d t) c d).proms
            = (unsubscribeTok M d t).proms from rfl]
        exact (unsubscribeTok_cells M d t).2.2

/-! ### The second reconcile loop of DerivedAtom.read -/

theorem getCell_some_of_lt (m : Machine) (c : CellId) (h : c < m.cells.length) :
    ∃ cl, getCell m c = some cl := by
  rw [getCell, List.getElem?_eq_getElem h]
  exact ⟨_, rfl⟩

theorem subsList_pushDep (m : Machine) (c : CellId) (d : CellId) (t : Nat) (e : CellId) :
    subsList (pushDep m c d t) e = subsList m e := by
  by_cases hec : e = c
  · subst hec
    simp only [pushDep, subsList, cellOf, getCell_modCell_self]
    cases hg : getCell m e with
    | none => simp
    | some cl => cases hk : cl.kind <;> simp [hk]
  · simp [pushDep, subsList, cellOf, getCell_modCell_ne m c e _ hec]

theorem getCell_pushDep_ne (m : Machine) (c : CellId) (d : CellId) (t : Nat)
    (e : CellId) (he : e ≠ c) : getCell (pushDep m c d t) e = getCell m e :=
  getCell_modCell_ne m c e _ he

theorem getCell_pushDep_derived (m : Machine) (c : CellId) (d : CellId) (t : Nat)
    (clc : Cell) (g : GExp) (dl : List (CellId × Nat))
    (hg : getCell m c = some clc) (hk : clc.kind = Kind.derived g dl) :
    getCell (pushDep m c d t) c
      = some { clc with kind := Kind.derived g (dl ++ [(d, t)]) } := by
  rw [pushDep, getCell_modCell_self, hg]
  simp only [Option.map, hk]

/-- The second reconcile loop of `DerivedAtom.read`, specified: every
touched cell ends up in the dependency map, every map entry's token is
a live subscription carrying the invalidation callback for `c`, and
nothing else changes beyond subscriber additions bearing fresh
tokens. -/
theorem addDeps_spec (c : CellId) (g' : GExp) :
    ∀ (ds : List CellId) (f : Nat) (M : Machine) (clc : Cell) (dl₀ : List (CellId × Nat)),
    ds.length ≤ f →
    getCell M c = some clc → clc.kind = Kind.derived g' dl₀ →
    (∀ d ∈ ds, d ≠ c ∧ ∃ cl, getCell M d = some cl ∧ primKind cl.kind = true) →
    (∀ q ∈ dl₀, (q.2, SubAct.inval c) ∈ subsList M q.1) →
    ∃ clc' dl', getCell (addDeps f M c ds) c = some clc' ∧
      clc'.kind = Kind.derived g' dl' ∧
      (∀ q ∈ dl₀, q ∈ dl') ∧
      (∀ e, e ∈ dl'.map Prod.fst ↔ e ∈ dl₀.map Prod.fst ∨ e ∈ ds) ∧
      (∀ q ∈ dl', (q.2, SubAct.inval c) ∈ subsList (addDeps f M c ds) q.1) ∧
      (∀ e x, x ∈ subsList M e → x ∈ subsList (addDeps f M c ds) e) ∧
      (∀ e x, x ∈ subsList (addDeps f M c ds) e → x ∈ subsList M e ∨ M.nextTok ≤ x.1) ∧
      M.nextTok ≤ (addDeps f M c ds).nextTok ∧
      (∀ e, e ≠ c → kindOf (addDeps f M c ds) e = kindOf M e) ∧
      (addDeps f M c ds).cells.length = M.cells.length ∧
      (addDeps f M c ds).proms = M.proms := by
  intro ds
  induction ds with
  | nil =>
    intro f M clc dl₀ hf hg hk hds hw
    rw [show addDeps f M c [] = M from by cases f <;> rfl]
    exact ⟨clc, dl₀, hg, hk, fun q hq => hq, by simp, hw,
      fun e x hx => hx, fun e x hx => Or.inl hx, Nat.le_refl _,
      fun e _ => rfl, rfl, rfl⟩
  | cons d rest ih =>
    intro f M clc dl₀ hf hg hk hds hw
    match f, hf with
    | f + 1, hf =>
    have hf' : rest.length ≤ f := Nat.le_of_succ_le_succ hf
    have hdep : depsOf M c = dl₀ := by simp [depsOf, kindOf, cellOf, hg, hk]
    cases hany : (depsOf M c).any (fun q => q.1 = d) with
    | true =>
      rw [show addDeps (f + 1) M c (d :: rest) = addDeps f M c rest from by
        rw [addDeps, if_pos hany]]
      obtain ⟨clc', dl', h1, h2, h3, h4, h5, h6, h7, h8, h9, h10, h11⟩ :=
        ih f M clc dl₀ hf' hg hk (fun d' hd' => hds d' (List.mem_cons_of_mem _ hd')) hw
      have hdin : d ∈ dl₀.map Prod.fst := by
        rw [hdep] at hany
        rcases List.any_eq_true.1 hany with ⟨q, hq, hq1⟩
        simp only [decide_eq_true_eq] at hq1
        exact List.mem_map.2 ⟨q, hq, hq1⟩
      refine ⟨clc', dl', h1, h2, h3, ?_, h5, h6, h7, h8, h9, h10, h11⟩
      intro e
      rw [h4 e]
      constructor
      · rintro (h | h)
        · exact Or.inl h
        · exact Or.inr (List.mem_cons_of_mem _ h)
      · rintro (h | h)
        · exact Or.inl h
        · rcases List.mem_cons.1 h with h | h
          · subst h
            exact Or.inl hdin
          · exact Or.inr h
    | false =>
      obtain ⟨hdc, cl, hgd, hprim⟩ := hds d (List.mem_cons_self _ _)
      obtain ⟨m', hpair, hnt, htm, hpr, hlen, hother, hsubd, hkindd⟩ :=
        subscribeTo_prim_spec f M d (SubAct.inval c) cl hgd hprim
      have hstep : addDeps (f + 1) M c (d :: rest)
          = addDeps f (pushDep m' c d M.nextTok) c rest := by
        rw [addDeps, if_neg (by rw [hany]; exact Bool.false_ne_true), hpair]
      have hg' : getCell m' c = some clc := by
        rw [hother c (Ne.symm hdc)]
        exact hg
      have hgM₁c : getCell (pushDep m' c d M.nextTok) c
          = some { clc with kind := Kind.derived g' (dl₀ ++ [(d, M.nextTok)]) } :=
        getCell_pushDep_derived m' c d M.nextTok clc g' dl₀ hg' hk
      have hsub' : ∀ e, e ≠ d → subsList m' e = subsList M e := by
        intro e he
        simp [subsList, cellOf, hother e he]
      have hsubM : subsList M d = cl.subs := by
        simp [subsList, cellOf, hgd]
      have hw₁ : ∀ q ∈ dl₀ ++ [(d, M.nextTok)],
          (q.2, SubAct.inval c) ∈ subsList (pushDep m' c d M.nextTok) q.1 := by
        intro q hq
        rw [subsList_pushDep]
        rcases List.mem_append.1 hq with hq | hq
        · by_cases hqd : q.1 = d
          · rw [hqd, hsubd]
            refine List.mem_append_left _ ?_
            rw [← hsubM, ← hqd]
            exact hw q hq
          · rw [hsub' q.1 hqd]
            exact hw q hq
        · simp only [List.mem_singleton] at hq
          subst hq
          show (M.nextTok, SubAct.inval c) ∈ subsList m' d
          rw [hsubd]
          exact List.mem_append_right _ (by simp)
      have hds₁ : ∀ d' ∈ rest, d' ≠ c ∧
          ∃ cl', getCell (pushDep m' c d M.nextTok) d' = some cl' ∧
            primKind cl'.kind = true := by
        intro d' hd'
        obtain ⟨hd'c, cl', hgd', hprim'⟩ := hds d' (List.mem_cons_of_mem _ hd')
        refine ⟨hd'c, ?_⟩
        by_cases hd'd : d' = d
        · subst hd'd
          have hlt : d' < m'.cells.length := by
            rw [hlen]
            exact lt_of_getCell_some hgd'
          obtain ⟨cl₂, hg₂⟩ := getCell_some_of_lt m' d' hlt
          refine ⟨cl₂, ?_, ?_⟩
          · rw [getCell_pushDep_ne m' c d' M.nextTok d' hd'c]
            exact hg₂
          · have hck : cl₂.kind = cl.kind := by
              have hkd := hkindd
              simp only [kindOf, cellOf, hg₂, Option.getD_some] at hkd
              exact hkd
            rw [hck]
            exact hprim
        · refine ⟨cl', ?_, hprim'⟩
          rw [getCell_pushDep_ne m' c d M.nextTok d' hd'c, hother d' hd'd]
          exact hgd'
      obtain ⟨clc', dl', h1, h2, h3, h4, h5, h6, h7, h8, h9, h10, h11⟩ :=
        ih f (pushDep m' c d M.nextTok)
          { clc with kind := Kind.derived g' (dl₀ ++ [(d, M.nextTok)]) }
          (dl₀ ++ [(d, M.nextTok)]) hf' hgM₁c rfl hds₁ hw₁
      rw [hstep]
      have hntM₁ : (pushDep m' c d M.nextTok).nextTok = M.nextTok + 1 := by
        rw [show (pushDep m' c d M.nextTok).nextTok = m'.nextTok from rfl, hnt]
      refine ⟨clc', dl', h1, h2, ?_, ?_, h5, ?_, ?_, ?_, ?_, ?_, ?_⟩
      · intro q hq
        exact h3 q (List.mem_append_left _ hq)
      · intro e
        rw [h4 e]
        constructor
        · rintro (h | h)
          · rcases (by simpa using h : e ∈ dl₀.map Prod.fst ∨ e = d) with h' | h'
            · exact Or.inl h'
            · exact Or.inr (h' ▸ List.mem_cons_self _ _)
          · exact Or.inr (List.mem_cons_of_mem _ h)
        · rintro (h | h)
          · exact Or.inl (by simp [h])
          · rcases List.mem_cons.1 h with h' | h'
            · exact Or.inl (by simp [h'])
            · exact Or.inr h'
      · intro e x hx
        apply h6 e x
        rw [subsList_pushDep]
        by_cases hed : e = d
        · subst hed
          rw [hsubd]
          refine List.mem_append_left _ ?_
          rw [← hsubM]
          exact hx
        · rw [hsub' e hed]
          exact hx
      · intro e x hx
        rcases h7 e x hx with h | h
        · rw [subsList_pushDep] at h
          by_cases hed : e = d
          · subst hed
            rw [hsubd] at h
            rcases List.mem_append.1 h with h' | h'
            · refine Or.inl ?_
              rw [hsubM]
              exact h'
            · simp only [List.mem_singleton] at h'
              subst h'
              exact Or.inr (Nat.le_refl _)
          · rw [hsub' e hed] at h
            exact Or.inl h
        · rw [hntM₁] at h
          exact Or.inr (Nat.le_trans (Nat.le_succ _) h)
      · rw [hntM₁] at h8
        exact Nat.le_trans (Nat.le_succ _) h8
      · intro e hec
        rw [h9 e hec]
        rw [show kindOf (pushDep m' c d M.nextTok) e = kindOf m' e from by
          simp [kindOf, cellOf, getCell_pushDep_ne m' c d M.nextTok e hec]]
        by_cases hed : e = d
        · subst hed
          rw [hkindd]
          simp [kindOf, cellOf, hgd]
        · simp [kindOf, cellOf, hother e hed]
      · rw [h10, show (pushDep m' c d M.nextTok).cells.length = m'.cells.length
          from by simp [pushDep], hlen]
      · rw [h11, show (pushDep m' c d M.nextTok).proms = m'.proms from rfl, hpr]

/-- C1: after a completed `DerivedAtom.read` — the tracked getter
evaluation returns a value, having touched the set `ds` — the
dependency map of the derived cell records exactly `ds`: every touched
cell is present and its recorded token is a live subscription carrying
the invalidation callback for this cell, and every previously recorded
dependency not touched this pass has been unsubscribed (its token is
gone from that cell's subscriber list) and removed from the map.
Stated for a getter whose reads are primitive cells other than `c`,
with distinct recorded keys and recorded tokens below the token
counter. -/
theorem c1_dynamic_deps (f : Nat) (m : Machine) (c : CellId) (clc : Cell)
    (g : GExp) (dl : List (CellId × Nat)) (v : Val) (ds : List CellId) (m₁ : Machine)
    (hg : getCell m c = some clc) (hk : clc.kind = Kind.derived g dl)
    (hflat : ∀ d ∈ gReads g, d ≠ c ∧ ∃ cl, getCell m d = some cl ∧ primKind cl.kind = true)
    (hkeys : (dl.map Prod.fst).Nodup)
    (hwire : ∀ q ∈ dl, (q.2, SubAct.inval c) ∈ subsList m q.1)
    (htok : ∀ q ∈ dl, q.2 < m.nextTok)
    (heval : evalG f m [] g = (Except.ok v, ds, m₁))
    (hfds : ds.length ≤ f) :
    ∃ m₃ clc' dl', readC (f + 1) m c = (Except.ok v, m₃) ∧
      getCell m₃ c = some clc' ∧ clc'.kind = Kind.derived g dl' ∧
      (∀ e, e ∈ dl'.map Prod.fst ↔ e ∈ ds) ∧
      (∀ q ∈ dl', (q.2, SubAct.inval c) ∈ subsList m₃ q.1) ∧
      (∀ q ∈ dl, q.1 ∉ ds → ∀ a', (q.2, a') ∉ subsList m₃ q.1) := by
  have hflat' : ∀ d ∈ gReads g, primKind (kindOf m d) = true := by
    intro d hd
    obtain ⟨_, cl, hgd, hp⟩ := hflat d hd
    simpa [kindOf, cellOf, hgd] using hp
  obtain ⟨hfrG, hfrS, hfrT, hfrN, hfrP, hfrL, hfrK⟩ :=
    evalG_flat_frame g f m [] _ _ _ hflat' heval
  have hcprim : primKind (kindOf m c) = false := by
    simp [kindOf, cellOf, hg, hk, primKind]
  have hg₁ : getCell m₁ c = some clc := by
    rw [hfrG c hcprim]
    exact hg
  have hdsmem : ∀ d ∈ ds, d ∈ gReads g := by
    intro d hd
    rcases evalG_ds_sub g f m [] _ _ _ heval d hd with h | h
    · exact absurd h (List.not_mem_nil d)
    · exact h
  obtain ⟨clc₂, p1, p2, p3, p4, p5, p6, p7, p8, p9⟩ :=
    prune_go c ds dl [] m₁ clc g hg₁ hk hkeys
      (fun q hq => absurd hq (List.not_mem_nil q))
  have hds₂ : ∀ d ∈ ds, d ≠ c ∧
      ∃ cl, getCell (pruneDeps c ds m₁ dl) d = some cl ∧ primKind cl.kind = true := by
    intro d hd
    obtain ⟨hdc, cl, hgd, hp⟩ := hflat d (hdsmem d hd)
    refine ⟨hdc, ?_⟩
    have hlt : d < (pruneDeps c ds m₁ dl).cells.length := by
      rw [p7, hfrL]
      exact lt_of_getCell_some hgd
    obtain ⟨cl₂, hg₂⟩ := getCell_some_of_lt _ d hlt
    refine ⟨cl₂, hg₂, ?_⟩
    have hkc2 : cl₂.kind = kindOf m₁ d := by
      have h6' := p6 d hdc
      simpa [kindOf, cellOf, hg₂] using h6'
    rw [hkc2, hfrK d]
    exact hflat' d (hdsmem d hd)
  have hw₂ : ∀ q ∈ dl.filter (fun q => ds.contains q.1),
      (q.2, SubAct.inval c) ∈ subsList (pruneDeps c ds m₁ dl) q.1 := by
    intro q hq
    have hqdl : q ∈ dl := List.mem_of_mem_filter hq
    have hqds : ds.contains q.1 = true := by
      have h := List.of_mem_filter hq
      exact h
    rw [p5 q.1 hqds, hfrS q.1]
    exact hwire q hqdl
  obtain ⟨clc', dl', a1, a2, a3, a4, a5, a6, a7, a8, a9, a10, a11⟩ :=
    addDeps_spec c g ds f (pruneDeps c ds m₁ dl) clc₂
      (dl.filter (fun q => ds.contains q.1)) hfds p1 p2 hds₂ hw₂
  have hread : readC (f + 1) m c
      = (Except.ok v, addDeps f (pruneDeps c ds m₁ dl) c ds) := by
    simp only [readC, hg, hk, heval]
  refine ⟨addDeps f (pruneDeps c ds m₁ dl) c ds, clc', dl', hread, a1, a2, ?_, a5, ?_⟩
  · intro e
    rw [a4 e]
    constructor
    · rintro (h | h)
      · rcases List.mem_map.1 h with ⟨q, hq, hq1⟩
        have hqds : ds.contains q.1 = true := by
          have h2 := List.of_mem_filter hq
          exact h2
        subst hq1
        simpa using hqds
      · exact h
    · intro h
      exact Or.inr h
  · intro q hq hqds a'
    have hqc : ds.contains q.1 = false := by
      cases hcq : ds.contains q.1 with
      | false => rfl
      | true => exact absurd (by simpa using hcq) hqds
    have hstale := p3 q hq hqc a'
    intro hmem
    rcases a7 q.1 (q.2, a') hmem with h | h
    · exact hstale h
    · rw [p8, hfrN] at h
      exact absurd (htok q hq) (Nat.not_lt.2 h)

/-- The getter of the C1 witness: reads cell 1 only when cell 0 is
truthy — the dynamic-dependency scenario of the spec. -/
def g1w : GExp := GExp.iteZ (GExp.getA 0) (GExp.getA 1) (GExp.const 5)

def cellA1 : Cell :=
  { kind := Kind.sync, dirty := false, state := 0,
    subs := [(0, SubAct.inval 2)], unmount := none }

def cellB1 : Cell :=
  { kind := Kind.sync, dirty := false, state := 10,
    subs := [(1, SubAct.inval 2)], unmount := none }

def cellD1 : Cell :=
  { kind := Kind.derived g1w [(0, 0), (1, 1)], dirty := true, state := 10,
    subs := [], unmount := none }

def mC1 : Machine := { cells := [cellA1, cellB1, cellD1], nextTok := 2 }

theorem c1_dynamic_deps_witness :
    ∃ m₃ clc' dl', readC 4 mC1 2 = (Except.ok 5, m₃) ∧
      getCell m₃ 2 = some clc' ∧ clc'.kind = Kind.derived g1w dl' ∧
      (∀ e, e ∈ dl'.map Prod.fst ↔ e ∈ [0]) ∧
      (∀ q ∈ dl', (q.2, SubAct.inval 2) ∈ subsList m₃ q.1) ∧
      (∀ q ∈ [(0, 0), (1, 1)], q.1 ∉ ([0] : List CellId) →
        ∀ a', (q.2, a') ∉ subsList m₃ q.1) := by
  refine c1_dynamic_deps 3 mC1 2 cellD1 g1w [(0, 0), (1, 1)] 5 [0] mC1
    rfl rfl ?_ (by decide) (by decide) (by decide) (by decide) (by decide)
  intro d hd
  have hd' : d = 0 ∨ d = 1 := by simpa [g1w, gReads] using hd
  rcases hd' with h | h
  · subst h
    exact ⟨by decide, cellA1, rfl, rfl⟩
  · subst h
    exact ⟨by decide, cellB1, rfl, rfl⟩

/-- C10: when the getter of a derived cell raises — a suspension from a
pending upstream cell, or any genuine error — during `read()`, the
reconcile never runs: the raised signal propagates (also through
`peek()`), the derived cell itself (in particular its dependency map)
is exactly as before the read began, and no cell's subscriber list
anywhere changed — nothing touched during the aborted pass was
subscribed and no previously tracked dependency was unsubscribed.
Stated for a getter whose reads are primitive (non-derived) cells. -/
theorem c10_failed_read_preserves_deps (f : Nat) (m : Machine) (c : CellId)
    (cell : Cell) (h : getCell m c = some cell) (g : GExp)
    (dl : List (CellId × Nat)) (hk : cell.kind = Kind.derived g dl)
    (hflat : ∀ d ∈ gReads g, primKind (kindOf m d) = true)
    (e : Exc) (ds : List CellId) (m₁ : Machine)
    (heval : evalG f m [] g = (Except.error e, ds, m₁)) :
    readC (f + 1) m c = (Except.error e, m₁) ∧
    getCell m₁ c = some cell ∧
    depsOf m₁ c = dl ∧
    (∀ d, subsList m₁ d = subsList m d) ∧
    (cell.dirty = true → peek (f + 2) m c = (Except.error e, m₁)) := by
  have hframe := evalG_flat_frame g f m [] _ _ _ hflat heval
  have hprimc : primKind (kindOf m c) = false := by
    simp [kindOf, cellOf, h, hk, primKind]
  have hgc : getCell m₁ c = some cell := (hframe.1 c hprimc).trans h
  have hrd : readC (f + 1) m c = (Except.error e, m₁) := by
    simp only [readC, h, hk, heval]
  refine ⟨hrd, hgc, ?_, hframe.2.1, ?_⟩
  · simp [depsOf, kindOf, cellOf, hgc, hk]
  · intro hd
    exact peek_dirty_err (f + 1) m c cell h hd e m₁ hrd

/-- The getter of the C10 witness: reads the async cell 0, then adds a
constant — the read suspends, aborting the pass. -/
def g10 : GExp := GExp.add (GExp.getA 0) (GExp.const 1)

def cellC10 : Cell :=
  { kind := Kind.derived g10 [], dirty := true, state := 0, subs := [], unmount := none }

def mC10 : Machine := { cells := [mkAsync (some 3), cellC10] }

def mC10after : Machine := (evalG 5 mC10 [] g10).2.2

theorem c10_failed_read_preserves_deps_witness :
    readC 6 mC10 1 = (Except.error (Exc.prom 0), mC10after) ∧
    getCell mC10after 1 = some cellC10 ∧
    depsOf mC10after 1 = [] ∧
    (∀ d, subsList mC10after d = subsList mC10 d) ∧
    (cellC10.dirty = true → peek 7 mC10 1 = (Except.error (Exc.prom 0), mC10after)) :=
  c10_failed_read_preserves_deps 5 mC10 1 cellC10 rfl g10 [] rfl (by decide)
    (Exc.prom 0) [0] mC10after (by decide)

theorem c6_lazy_invalidation_witness :
    (dirtyOf (update 4 mC6 0 7) 2 = true ∧
      Ev.spy 5 ∈ (update 4 mC6 0 7).events ∧
      stateOf (update 4 mC6 0 7) 2 = cellC6.state ∧
      kindOf (update 4 mC6 0 7) 2 = Kind.derived g6 [(0, 0), (1, 1)] ∧
      (∀ f₂ v' ds m₁, evalG f₂ (update 4 mC6 0 7) [] g6 = (Except.ok v', ds, m₁) →
        readC (f₂ + 1) (update 4 mC6 0 7) 2 =
          (Except.ok v', addDeps f₂ (pruneDeps 2 ds m₁ [(0, 0), (1, 1)]) 2 ds))) ∧
    (dirtyOf (invalidate 4 mC6 0) 2 = true ∧
      Ev.spy 5 ∈ (invalidate 4 mC6 0).events ∧
      stateOf (invalidate 4 mC6 0) 2 = cellC6.state ∧
      kindOf (invalidate 4 mC6 0) 2 = Kind.derived g6 [(0, 0), (1, 1)]) :=
  c6_lazy_invalidation 3 mC6 0 2 cellA6 cellC6 rfl rfl (by decide) g6
    [(0, 0), (1, 1)] rfl 0 2 5 (by decide) (by decide) (by decide) 7

end Atoms
